import Mathlib

/-!
Verification of the source-file indexing core of the editor-analyzer
repository: the precomputed line index with multi-encoding position
conversion (rpa-source-file/src/line_index.rs), the unindexed line-boundary
scanner (rpa-source-file/src/line_ranges.rs), the source-file wrapper
(rpa-source-file/src/lib.rs) and the comment-range index
(rpa-python-trivia/src/comment_ranges.rs).

Shallow embedding conventions: a Rust `&str` is a `List Char` of Unicode
scalar values; `TextSize` byte offsets are `Nat` (the construction asserts
the byte length fits in `u32`, so all offsets derived from an index stay
below `2 ^ 32` and plain `Nat` arithmetic is exact); operations that can
panic (slice indexing at an invalid byte offset, `Vec` indexing out of
bounds, failed `assert!`/`unwrap`) return `Option` and model the panic as
`none`.  The line-break scan in `from_source_text` iterates over UTF-8
bytes; because the bytes `0x0A` and `0x0D` occur in well-formed UTF-8 only
as the complete encodings of the characters `\n` and `\r` (continuation
bytes are at least `0x80` and leading bytes of multi-byte sequences at
least `0xC2`), the byte scan is embedded as a scan over characters that
advances a byte cursor by each character's UTF-8 width.
-/

/-- Maximum value of `u32`, the bound asserted by `LineIndex::from_source_text`. -/
def u32Max : Nat := 4294967295

/-- UTF-8 byte width of a Unicode scalar value (Rust `char::len_utf8` /
`TextLen::text_len`). -/
def utf8Len (c : Char) : Nat :=
  if c.toNat < 128 then 1
  else if c.toNat < 2048 then 2
  else if c.toNat < 65536 then 3
  else 4

/-- UTF-16 code-unit width of a Unicode scalar value (Rust `char::len_utf16`);
code points outside the Basic Multilingual Plane count as two units. -/
def utf16Len (c : Char) : Nat :=
  if c.toNat < 65536 then 1 else 2

/-- Byte length of a string (`str::len` on the UTF-8 representation). -/
def byteLen : List Char → Nat
  | [] => 0
  | c :: rest => utf8Len c + byteLen rest

/-- Byte offset of the character boundary after the first `k` characters. -/
def byteOff (t : List Char) (k : Nat) : Nat :=
  byteLen (t.take k)

/-- Total UTF-16 code-unit count of a string (`str::encode_utf16().count()`). -/
def utf16Count : List Char → Nat
  | [] => 0
  | c :: rest => utf16Len c + utf16Count rest

/-- Models taking the prefix `&s[..n]` of a Rust `str` by byte count:
returns the characters whose encodings make up the first `n` bytes, or
`none` (a panic) when `n` is not a character boundary or exceeds the
length. -/
def takeBytes : List Char → Nat → Option (List Char)
  | _, 0 => some []
  | [], _ + 1 => none
  | c :: rest, n + 1 =>
    if utf8Len c ≤ n + 1 then (takeBytes rest (n + 1 - utf8Len c)).map (c :: ·)
    else none

/-- Models dropping the prefix `&s[n..]` of a Rust `str` by byte count; `none`
models the panic on a non-boundary or out-of-range `n`. -/
def dropBytes : List Char → Nat → Option (List Char)
  | t, 0 => some t
  | [], _ + 1 => none
  | c :: rest, n + 1 =>
    if utf8Len c ≤ n + 1 then dropBytes rest (n + 1 - utf8Len c)
    else none

/-- Models the Rust slice `&s[start..end]` by byte offsets; `none` models the
panic on reversed bounds or invalid boundaries. -/
def sliceBytes (t : List Char) (s e : Nat) : Option (List Char) :=
  if s ≤ e then (dropBytes t s).bind (fun t2 => takeBytes t2 (e - s)) else none

/-- Decidable test that a byte offset lies on a character boundary of the
text (including the end-of-text offset). -/
def isCharBoundary (t : List Char) (o : Nat) : Bool :=
  (takeBytes t o).isSome

/-- Classification flag of a built line index: whether any non-ASCII byte was
seen during the construction scan (line_index.rs, `IndexKind`). -/
inductive IndexKind where
  | Ascii
  | Utf8
deriving DecidableEq, Repr

/-- Rust `IndexKind::is_ascii`. -/
def IndexKind.isAscii : IndexKind → Bool
  | .Ascii => true
  | .Utf8 => false

/-- The precomputed line index (line_index.rs, `LineIndex` /
`LineIndexInner`): the ascending table of line-start byte offsets plus the
ASCII classification flag. -/
structure LineIndex where
  lineStarts : List Nat
  kind : IndexKind
deriving DecidableEq, Repr

/-- Positions of line starts recorded by the construction scan of
`LineIndex::from_source_text`, beyond the initial `0` entry: scanning from
byte offset `p`, a `\r` immediately followed by `\n` records nothing (the
pair is one break, recorded at the `\n`), any other `\n` or `\r` at byte
offset `i` records `i + 1`. -/
def lineBreaks : List Char → Nat → List Nat
  | [], _ => []
  | c :: rest, p =>
    if c = '\r' ∧ rest.head? = some '\n' then
      lineBreaks rest (p + utf8Len c)
    else if c = '\n' ∨ c = '\r' then
      (p + 1) :: lineBreaks rest (p + utf8Len c)
    else
      lineBreaks rest (p + utf8Len c)

/-- Rust `LineIndex::from_source_text`: pushes offset 0, scans the bytes
recording line starts and OR-ing a non-ASCII flag, and asserts that the
byte length fits in `u32` (`none` models the failed assertion). -/
def LineIndex.fromSourceText (text : List Char) : Option LineIndex :=
  if byteLen text ≤ u32Max then
    some
      { lineStarts := 0 :: lineBreaks text 0
        kind := if text.any (fun c => !(c.toNat < 128)) then .Utf8 else .Ascii }
  else
    none

/-- Models `slice::binary_search_by` through its documented contract,
specialized to a comparator that is sorted over the slice (`lt` results
form a prefix): the insertion point is the length of the `lt` prefix, and
the search succeeds exactly when the element there compares `eq`. -/
def binarySearchBy (xs : List α) (f : α → Ordering) : Except Nat Nat :=
  let ip := (xs.takeWhile (fun x => f x == Ordering.lt)).length
  match xs.get? ip with
  | some x => if f x = Ordering.eq then Except.ok ip else Except.error ip
  | none => Except.error ip

/-- Rust `LineIndex::line_index`: binary search of the offset in the
line-start table; an exact hit at row `r` gives one-based line `r + 1`,
otherwise the line before the insertion point.  The `row - 1` in the
miss case is `Nat` truncated subtraction; the source marks that underflow
unreachable because the table always contains the entry 0. -/
def LineIndex.lineIndex (idx : LineIndex) (offset : Nat) : Nat :=
  match binarySearchBy idx.lineStarts (fun s => compare s offset) with
  | Except.ok row => row + 1
  | Except.error row => (row - 1) + 1

/-- Rust `LineIndex::line_start` (one-based `line`): the virtual line one
past the table returns the text length; otherwise the table entry, where
`none` models the index-out-of-bounds panic. -/
def LineIndex.lineStart (idx : LineIndex) (line : Nat) (text : List Char) : Option Nat :=
  let row := line - 1
  if row = idx.lineStarts.length then some (byteLen text)
  else idx.lineStarts.get? row

/-- Rust `LineIndex::line_end`: the next line's start, or the text length
when there is no recorded next line. -/
def LineIndex.lineEnd (idx : LineIndex) (line : Nat) (text : List Char) : Nat :=
  let row := line - 1
  if row + 1 ≥ idx.lineStarts.length then byteLen text
  else idx.lineStarts.getD (row + 1) 0

/-- Rust `LineIndex::line_end_exclusive`: like `line_end` but trimming
exactly one trailing byte off the next line's start. -/
def LineIndex.lineEndExclusive (idx : LineIndex) (line : Nat) (text : List Char) : Nat :=
  let row := line - 1
  if row + 1 ≥ idx.lineStarts.length then byteLen text
  else idx.lineStarts.getD (row + 1) 0 - 1

/-- Rust `LineIndex::line_range`: the empty range at end-of-text for the
virtual trailing line, otherwise the half-open range between this line's
start and the next line's start.  Constructing a `TextRange` requires
`start ≤ end` (modelled from the spec: the byte-range invariant
`start ≤ end` of the offset/range arithmetic component). -/
def LineIndex.lineRange (idx : LineIndex) (line : Nat) (text : List Char) :
    Option (Nat × Nat) :=
  if idx.lineStarts.length = line - 1 then some (byteLen text, byteLen text)
  else do
    let s ← idx.lineStart line text
    let e ← idx.lineStart (line + 1) text
    if s ≤ e then some (s, e) else none

/-- Position encoding requested by a caller (line_index.rs,
`PositionEncoding`). -/
inductive PositionEncoding where
  | Utf8
  | Utf16
  | Utf32
deriving DecidableEq, Repr

/-- One-based line plus an encoding-dependent one-based character offset
(lib.rs, `SourceLocation`); both fields store `OneIndexed` values, i.e.
`from_zero_indexed v = v + 1`. -/
structure SourceLocation where
  line : Nat
  characterOffset : Nat
deriving DecidableEq, Repr

/-- Rust `LineIndex::source_location`: find the line of the offset, then
convert the byte delta from the line start into the requested encoding;
the ASCII fast path uses the raw byte delta for every encoding.  The
UTF-16 and UTF-32 paths slice the text between line start and offset, so
an invalid offset is a panic (`none`) there. -/
def LineIndex.sourceLocation (idx : LineIndex) (offset : Nat) (text : List Char)
    (encoding : PositionEncoding) : Option SourceLocation := do
  let line := idx.lineIndex offset
  let lineStart ← idx.lineStart line text
  if idx.kind.isAscii then
    some ⟨line, (offset - lineStart) + 1⟩
  else
    match encoding with
    | .Utf8 =>
      some ⟨line, (offset - lineStart) + 1⟩
    | .Utf16 => do
      let upTo ← sliceBytes text lineStart offset
      some ⟨line, utf16Count upTo + 1⟩
    | .Utf32 => do
      let upTo ← sliceBytes text lineStart offset
      some ⟨line, upTo.length + 1⟩

/-- The walk of `LineIndex::offset` for UTF-16: consume the line's
characters, accumulating a byte offset and a UTF-16 code-unit count,
stopping as soon as the accumulated unit count reaches the requested
character offset. -/
def utf16ByteOffset : List Char → Nat → Nat → Nat → Nat
  | [], _, byteOffset, _ => byteOffset
  | c :: rest, target, byteOffset, unitOffset =>
    if unitOffset ≥ target then byteOffset
    else utf16ByteOffset rest target (byteOffset + utf8Len c) (unitOffset + utf16Len c)

/-- Rust `LineIndex::offset`: inverse conversion from a source location to a
byte offset.  A line more than one past the table returns the text length;
otherwise the requested character offset is converted to a byte delta
within the line (directly for the ASCII fast path and UTF-8, by the
code-unit walk for UTF-16, by summing the widths of the first `n`
characters for UTF-32) and clamped to the line's byte range.  The
`TextSize::try_from(...).unwrap()` calls fail (`none`) above `u32Max`. -/
def LineIndex.offsetOf (idx : LineIndex) (pos : SourceLocation) (text : List Char)
    (encoding : PositionEncoding) : Option Nat := do
  if pos.line - 1 > idx.lineStarts.length then
    some (byteLen text)
  else do
    let range ← idx.lineRange pos.line text
    let characterOffset := pos.characterOffset - 1
    let characterByteOffset ←
      if idx.kind.isAscii then
        if characterOffset ≤ u32Max then some characterOffset else none
      else do
        let line ← sliceBytes text range.1 range.2
        match encoding with
        | .Utf8 =>
          if characterOffset ≤ u32Max then some characterOffset else none
        | .Utf16 =>
          some (utf16ByteOffset line characterOffset 0 0)
        | .Utf32 =>
          some (byteLen (line.take characterOffset))
    some (range.1 + min characterByteOffset (range.2 - range.1))

/-- Byte position, plus one, of the last `\n` or `\r` character in the
list when scanning from byte offset `p` (models `memrchr2(b'\n', b'\r', ...)`
followed by the `index + 1` of `<str as LineRanges>::line_start`; the
newline characters are single bytes, and in well-formed UTF-8 the bytes
`0x0A`/`0x0D` occur only as those characters). -/
def lastNewlineEnd : List Char → Nat → Option Nat
  | [], _ => none
  | c :: rest, p =>
    match lastNewlineEnd rest (p + utf8Len c) with
    | some q => some q
    | none => if c = '\n' ∨ c = '\r' then some (p + 1) else none

/-- Rust `<str as LineRanges>::bom_start_offset`: past a leading byte-order
mark if present (its UTF-8 width is 3 bytes), else the start of file. -/
def bomStartOffset (text : List Char) : Nat :=
  if text.head? = some '﻿' then utf8Len '﻿' else 0

/-- Rust `<str as LineRanges>::line_start`: scan backward from `offset`
(over the slice `&self[..offset]`, whose failure is a panic) for the
nearest preceding line terminator; if none, return the start-of-content
offset, which skips a leading byte-order mark. -/
def strLineStart (text : List Char) (offset : Nat) : Option Nat :=
  (takeBytes text offset).map (fun pre =>
    match lastNewlineEnd pre 0 with
    | some q => q
    | none => bomStartOffset text)

/-- Rust `LineRanges::is_at_start_of_line`: whether `line_start(offset)`
equals `offset` itself. -/
def isAtStartOfLine (text : List Char) (offset : Nat) : Option Bool :=
  (strLineStart text offset).map (fun ls => ls == offset)

/-- Byte position of the first `\n` or `\r` character of the list (models
`memchr2(b'\n', b'\r', ...)` in `<str as LineRanges>::line_end`). -/
def firstNewlinePos : List Char → Option Nat
  | [] => none
  | c :: rest =>
    if c = '\n' ∨ c = '\r' then some 0
    else (firstNewlinePos rest).map (· + utf8Len c)

/-- Modelled from the spec: `find_newline` lives in
rpa-source-file/src/newlines.rs, which is not under src/.  Per the spec of
`full_line_end`, it locates the next line terminator and reports its byte
position together with its width, counting a `\r\n` pair as one two-byte
terminator and a lone `\n` or `\r` as one byte. -/
def findNewline : List Char → Option (Nat × Nat)
  | [] => none
  | c :: rest =>
    if c = '\n' then some (0, 1)
    else if c = '\r' then
      some (0, if rest.head? = some '\n' then 2 else 1)
    else
      (findNewline rest).map (fun iw => (iw.1 + utf8Len c, iw.2))

/-- Rust `<str as LineRanges>::full_line_end`: the offset just past the next
line terminator found at or after `offset`, or the text length when there
is none; slicing `&self[offset..]` panics (`none`) on an invalid offset. -/
def strFullLineEnd (text : List Char) (offset : Nat) : Option Nat :=
  (dropBytes text offset).map (fun slice =>
    match findNewline slice with
    | some iw => offset + iw.1 + iw.2
    | none => byteLen text)

/-- Rust `<str as LineRanges>::line_end`: the offset of (before) the next
line terminator at or after `offset`, or the text length. -/
def strLineEnd (text : List Char) (offset : Nat) : Option Nat :=
  (dropBytes text offset).map (fun slice =>
    match firstNewlinePos slice with
    | some i => offset + i
    | none => byteLen text)

/-- Rust `<str as LineRanges>::contains_line_break` over the byte range
`[s, e)`: whether any line-terminator byte falls inside the slice. -/
def containsLineBreak (text : List Char) (s e : Nat) : Option Bool :=
  (sliceBytes text s e).map (fun slice => slice.any (fun c => c = '\n' || c = '\r'))

/-- Modelled from the spec: `is_python_whitespace` lives in the
rpa-python-trivia crate root, which is not under src/.  The spec's glossary
treats an own-line comment as one preceded only by whitespace, and an
empty comment as one whose content after the marker is entirely
whitespace; horizontal Python whitespace is space, tab or form feed. -/
def isPythonWhitespace (c : Char) : Bool :=
  c = ' ' || c = '\t' || c = '\x0C'

/-- Rust `CommentRanges::is_own_line`: all content between the comment's
line start and the comment is whitespace. -/
def isOwnLine (offset : Nat) (source : List Char) : Option Bool := do
  let ls ← strLineStart source offset
  let s ← sliceBytes source ls offset
  some (s.all isPythonWhitespace)

/-- Rust `CommentRanges::is_empty`: the comment's content after its leading
marker character is entirely whitespace. -/
def isEmptyComment (range : Nat × Nat) (source : List Char) : Option Bool := do
  let s ← sliceBytes source range.1 range.2
  some ((s.drop 1).all isPythonWhitespace)

/-- Modelled from the spec: `TextRange::intersect` lives in the
rpa-text-size crate (range.rs), which is not under src/.  Per the spec's
byte-range data model, intersection returns the overlapping sub-range of
two half-open ranges, or none when they have no byte in common. -/
def rangeIntersect (a b : Nat × Nat) : Option (Nat × Nat) :=
  let s := max a.1 b.1
  let e := min a.2 b.2
  if s < e then some (s, e) else none

/-- The three-way comparator of `CommentRanges::intersects`: a candidate
range that overlaps the target compares equal, one that ends before the
target starts compares less, anything else greater. -/
def commentOrd (target range : Nat × Nat) : Ordering :=
  if (rangeIntersect target range).isSome then Ordering.eq
  else if range.2 < target.1 then Ordering.lt
  else Ordering.gt

/-- Rust `CommentRanges::intersects`: binary search with the three-way
overlap comparator; true exactly when the search succeeds. -/
def commentsIntersect (ranges : List (Nat × Nat)) (target : Nat × Nat) : Bool :=
  match binarySearchBy ranges (fun r => commentOrd target r) with
  | Except.ok _ => true
  | Except.error _ => false

/-- State threaded through the `block_comments` loop: emitted offsets so
far, the members of the open block, its anchor column, whether some member
is non-empty, and the previous comment's full line end. -/
structure BlockState where
  out : List Nat
  block : List Nat
  column : Option Nat
  nonEmpty : Bool
  prevLineEnd : Option Nat
deriving Repr

/-- The flush of `block_comments`: a block's members are emitted only when
it has more than one member and at least one member is non-empty. -/
def flushBlock (st : BlockState) : List Nat :=
  if st.block.length > 1 ∧ st.nonEmpty then st.block else []

/-- One iteration of the `block_comments` loop over a comment range:
an end-of-line comment flushes and clears the block; a blank line between
this and the previous comment flushes and starts a new block here; an
own-line comment at the open block's column joins it; otherwise the block
is flushed and a new one starts at this comment's column. -/
def blockStep (source : List Char) (st : BlockState) (range : Nat × Nat) :
    Option BlockState := do
  let offset := range.1
  let lineStart ← strLineStart source offset
  let lineEnd ← strFullLineEnd source offset
  let column := offset - lineStart
  let own ← isOwnLine offset source
  if own = false then
    some { out := st.out ++ flushBlock st, block := [], column := none,
           nonEmpty := false, prevLineEnd := some lineEnd }
  else do
    let blank ←
      match st.prevLineEnd with
      | some p => containsLineBreak source p lineStart
      | none => some false
    if blank = true then do
      let em ← isEmptyComment range source
      some { out := st.out ++ flushBlock st, block := [offset], column := some column,
             nonEmpty := !em, prevLineEnd := some lineEnd }
    else
      match st.column with
      | some currentColumn =>
        if column = currentColumn then do
          let em ← isEmptyComment range source
          some { st with
                   block := st.block ++ [offset],
                   nonEmpty := st.nonEmpty || !em,
                   prevLineEnd := some lineEnd }
        else do
          let em ← isEmptyComment range source
          some { out := st.out ++ flushBlock st, block := [offset], column := some column,
                 nonEmpty := !em, prevLineEnd := some lineEnd }
      | none => do
        let em ← isEmptyComment range source
        some { out := st.out ++ flushBlock st, block := [offset], column := some column,
               nonEmpty := !em, prevLineEnd := some lineEnd }

/-- Rust `CommentRanges::block_comments`: the single forward pass over the
sorted comment ranges, flushing any lingering block at the end. -/
def blockComments (ranges : List (Nat × Nat)) (source : List Char) :
    Option (List Nat) := do
  let final ← ranges.foldlM (blockStep source)
    { out := [], block := [], column := none, nonEmpty := false, prevLineEnd := none }
  some (final.out ++ flushBlock final)

/-- State threaded through the specification-side grouping pass: the blocks
closed so far, each paired with its has-non-empty-member flag, plus the
same open block, anchor column, non-empty flag and previous full line end
as the implementation loop. -/
structure GroupState where
  groups : List (List Nat × Bool)
  block : List Nat
  column : Option Nat
  nonEmpty : Bool
  prevLineEnd : Option Nat
deriving Repr

/-- Closing the open block on the specification side: a non-empty member
list is recorded as a block together with its non-empty flag; an empty
member list records nothing. -/
def specCloseBlock (block : List Nat) (nonEmpty : Bool) : List (List Nat × Bool) :=
  if block = [] then [] else [(block, nonEmpty)]

/-- Modelled from the spec: the block-comment grouping state machine
described for `block_comments` (states NoBlock and Building with a column,
members and a non-empty flag; an end-of-line comment closes the block, a
blank separating line or a differing column closes it and opens a new one
anchored at the current comment, a matching column appends), recording
every block it forms and applying no emission filter.  This is the
specification side of the refinement for the grouping algorithm: comparing
`blockComments` with the blocks recorded here isolates the rule that a
block's members are emitted exactly when the block has more than one
member and at least one non-empty member. -/
def specGroupStep (source : List Char) (st : GroupState) (range : Nat × Nat) :
    Option GroupState := do
  let offset := range.1
  let lineStart ← strLineStart source offset
  let lineEnd ← strFullLineEnd source offset
  let column := offset - lineStart
  let own ← isOwnLine offset source
  if own = false then
    some { groups := st.groups ++ specCloseBlock st.block st.nonEmpty, block := [],
           column := none, nonEmpty := false, prevLineEnd := some lineEnd }
  else do
    let blank ←
      match st.prevLineEnd with
      | some p => containsLineBreak source p lineStart
      | none => some false
    if blank = true then do
      let em ← isEmptyComment range source
      some { groups := st.groups ++ specCloseBlock st.block st.nonEmpty,
             block := [offset], column := some column, nonEmpty := !em,
             prevLineEnd := some lineEnd }
    else
      match st.column with
      | some currentColumn =>
        if column = currentColumn then do
          let em ← isEmptyComment range source
          some { st with
                   block := st.block ++ [offset],
                   nonEmpty := st.nonEmpty || !em,
                   prevLineEnd := some lineEnd }
        else do
          let em ← isEmptyComment range source
          some { groups := st.groups ++ specCloseBlock st.block st.nonEmpty,
                 block := [offset], column := some column, nonEmpty := !em,
                 prevLineEnd := some lineEnd }
      | none => do
        let em ← isEmptyComment range source
        some { groups := st.groups ++ specCloseBlock st.block st.nonEmpty,
               block := [offset], column := some column, nonEmpty := !em,
               prevLineEnd := some lineEnd }

/-- The full specification-side grouping pass over the comment index,
closing any block still open at the end.  It returns every block, so the
emission condition appears nowhere in it. -/
def specGroups (ranges : List (Nat × Nat)) (source : List Char) :
    Option (List (List Nat × Bool)) := do
  let final ← ranges.foldlM (specGroupStep source)
    { groups := [], block := [], column := none, nonEmpty := false, prevLineEnd := none }
  some (final.groups ++ specCloseBlock final.block final.nonEmpty)

/-- The emission rule under scrutiny, per recorded block: its member
offsets when it has more than one member and at least one non-empty
member, nothing otherwise. -/
def emitGroup (g : List Nat × Bool) : List Nat :=
  if g.1.length > 1 ∧ g.2 = true then g.1 else []

/-- Projection of a specification-side grouping state onto the
implementation loop state: the emitted output so far is the concatenation
of the emission rule over the recorded blocks. -/
def projGroup (gt : GroupState) : BlockState :=
  { out := (gt.groups.map emitGroup).flatten, block := gt.block, column := gt.column,
    nonEmpty := gt.nonEmpty, prevLineEnd := gt.prevLineEnd }

/-- The source-file wrapper (lib.rs, `SourceFile` / `SourceFileInner`):
an immutable name and source text (the lazily cached line index carries no
observable state of its own). -/
structure SourceFile where
  name : List Char
  code : List Char
deriving DecidableEq, Repr

/-- Lexicographic comparison of strings by Unicode scalar value, the
behavior of `str::cmp` (byte-lexicographic UTF-8 order coincides with
scalar-value order). -/
def strCmp : List Char → List Char → Ordering
  | [], [] => Ordering.eq
  | [], _ :: _ => Ordering.lt
  | _ :: _, [] => Ordering.gt
  | a :: as_, b :: bs =>
    match compare a.toNat b.toNat with
    | Ordering.eq => strCmp as_ bs
    | o => o

/-- Rust `impl PartialEq for SourceFileInner` (which `SourceFile` equality
dereferences to): name and source text must both be equal. -/
def SourceFile.beq (a b : SourceFile) : Bool :=
  a.name == b.name && a.code == b.code

/-- Rust `impl Ord for SourceFile`: ordering is by name alone.  The
`Arc::ptr_eq` short-circuit returns `Equal` only when both handles are
the same allocation, in which case the names are equal and the comparison
below also returns `Equal`, so the short-circuit is extensionally
subsumed. -/
def SourceFile.cmp (a b : SourceFile) : Ordering :=
  strCmp a.name b.name

/-! ### Basic facts about UTF-8 byte accounting -/

theorem utf8Len_pos (c : Char) : 1 ≤ utf8Len c := by
  unfold utf8Len
  split_ifs <;> norm_num

theorem utf8Len_newline : utf8Len '\n' = 1 := by decide

theorem utf8Len_cr : utf8Len '\r' = 1 := by decide

theorem byteLen_append (a b : List Char) : byteLen (a ++ b) = byteLen a + byteLen b := by
  induction a with
  | nil => simp [byteLen]
  | cons c rest ih => simp [byteLen, ih]; omega

theorem byteOff_zero (t : List Char) : byteOff t 0 = 0 := rfl

theorem byteOff_cons_succ (c : Char) (rest : List Char) (k : Nat) :
    byteOff (c :: rest) (k + 1) = utf8Len c + byteOff rest k := rfl

theorem byteOff_add (t : List Char) (k m : Nat) :
    byteOff t (k + m) = byteOff t k + byteOff (t.drop k) m := by
  unfold byteOff
  rw [List.take_add, byteLen_append]

theorem byteOff_length (t : List Char) : byteOff t t.length = byteLen t := by
  unfold byteOff
  rw [List.take_length]

theorem byteOff_le_byteLen (t : List Char) (k : Nat) : byteOff t k ≤ byteLen t := by
  conv_rhs => rw [← List.take_append_drop k t]
  rw [byteLen_append]
  exact Nat.le_add_right _ _

theorem byteOff_pos (l : List Char) (m : Nat) (hl : l ≠ []) (hm : 1 ≤ m) :
    1 ≤ byteOff l m := by
  cases l with
  | nil => exact absurd rfl hl
  | cons c rest =>
    cases m with
    | zero => omega
    | succ k =>
      rw [byteOff_cons_succ]
      have := utf8Len_pos c
      omega

theorem byteOff_mono (t : List Char) {k j : Nat} (h : k ≤ j) :
    byteOff t k ≤ byteOff t j := by
  have : j = k + (j - k) := by omega
  rw [this, byteOff_add]
  exact Nat.le_add_right _ _

theorem byteOff_strict_mono (t : List Char) {k j : Nat} (hk : k < j)
    (hkl : k < t.length) : byteOff t k < byteOff t j := by
  have hj : j = k + (j - k) := by omega
  rw [hj, byteOff_add]
  have hd : t.drop k ≠ [] := by
    intro h
    have := List.length_drop k t
    rw [h] at this
    simp at this
    omega
  have := byteOff_pos (t.drop k) (j - k) hd (by omega)
  omega

theorem le_of_byteOff_le (t : List Char) {k j : Nat} (hk : k ≤ t.length)
    (h : byteOff t k ≤ byteOff t j) : k ≤ j := by
  by_contra hc
  push_neg at hc
  have := byteOff_strict_mono t hc (lt_of_lt_of_le hc hk)
  omega

/-! ### Facts about byte-offset slicing -/

theorem takeBytes_nil_pos {n : Nat} (h : 0 < n) : takeBytes [] n = none := by
  cases n with
  | zero => omega
  | succ m => rfl

theorem takeBytes_cons_pos (c : Char) (rest : List Char) {n : Nat} (h : 0 < n) :
    takeBytes (c :: rest) n =
      if utf8Len c ≤ n then (takeBytes rest (n - utf8Len c)).map (c :: ·) else none := by
  cases n with
  | zero => omega
  | succ m => rfl

theorem dropBytes_nil_pos {n : Nat} (h : 0 < n) : dropBytes [] n = none := by
  cases n with
  | zero => omega
  | succ m => rfl

theorem dropBytes_cons_pos (c : Char) (rest : List Char) {n : Nat} (h : 0 < n) :
    dropBytes (c :: rest) n =
      if utf8Len c ≤ n then dropBytes rest (n - utf8Len c) else none := by
  cases n with
  | zero => omega
  | succ m => rfl

theorem takeBytes_byteOff (k : Nat) :
    ∀ (t : List Char), k ≤ t.length → takeBytes t (byteOff t k) = some (t.take k) := by
  induction k with
  | zero => intro t _; simp [byteOff_zero, takeBytes]
  | succ m ih =>
    intro t hk
    cases t with
    | nil => simp at hk
    | cons c rest =>
      rw [byteOff_cons_succ]
      have hc := utf8Len_pos c
      rw [takeBytes_cons_pos c rest (by omega)]
      rw [if_pos (by omega)]
      have : utf8Len c + byteOff rest m - utf8Len c = byteOff rest m := by omega
      rw [this, ih rest (by simpa using hk)]
      rfl

theorem dropBytes_byteOff (k : Nat) :
    ∀ (t : List Char), k ≤ t.length → dropBytes t (byteOff t k) = some (t.drop k) := by
  induction k with
  | zero => intro t _; simp [byteOff_zero, dropBytes]
  | succ m ih =>
    intro t hk
    cases t with
    | nil => simp at hk
    | cons c rest =>
      rw [byteOff_cons_succ]
      have hc := utf8Len_pos c
      rw [dropBytes_cons_pos c rest (by omega)]
      rw [if_pos (by omega)]
      have : utf8Len c + byteOff rest m - utf8Len c = byteOff rest m := by omega
      rw [this, ih rest (by simpa using hk)]
      rfl

theorem takeBytes_some {t : List Char} {n : Nat} {l : List Char}
    (h : takeBytes t n = some l) :
    n = byteOff t l.length ∧ l.length ≤ t.length ∧ l = t.take l.length := by
  induction t generalizing n l with
  | nil =>
    cases n with
    | zero =>
      simp [takeBytes] at h
      subst h
      simp [byteOff_zero]
    | succ m => simp [takeBytes] at h
  | cons c rest ih =>
    cases n with
    | zero =>
      simp [takeBytes] at h
      subst h
      simp [byteOff_zero]
    | succ m =>
      rw [takeBytes_cons_pos c rest (by omega)] at h
      by_cases hc : utf8Len c ≤ m + 1
      · rw [if_pos hc] at h
        cases hrest : takeBytes rest (m + 1 - utf8Len c) with
        | none => rw [hrest] at h; simp at h
        | some l' =>
          rw [hrest] at h
          simp at h
          obtain ⟨h1, h2, h3⟩ := ih hrest
          subst h
          refine ⟨?_, by simpa using h2, by simpa using h3⟩
          simp only [List.length_cons, byteOff_cons_succ]
          omega
      · rw [if_neg hc] at h; simp at h

theorem takeBytes_none_of_gt {t : List Char} {n : Nat} (h : byteLen t < n) :
    takeBytes t n = none := by
  cases htb : takeBytes t n with
  | none => rfl
  | some l =>
    obtain ⟨h1, _, _⟩ := takeBytes_some htb
    have := byteOff_le_byteLen t l.length
    omega

theorem isCharBoundary_iff (t : List Char) (o : Nat) :
    isCharBoundary t o = true ↔ ∃ k, k ≤ t.length ∧ o = byteOff t k := by
  unfold isCharBoundary
  constructor
  · intro h
    cases htb : takeBytes t o with
    | none => rw [htb] at h; simp at h
    | some l =>
      obtain ⟨h1, h2, _⟩ := takeBytes_some htb
      exact ⟨l.length, h2, h1⟩
  · rintro ⟨k, hk, rfl⟩
    rw [takeBytes_byteOff k t hk]
    rfl

theorem sliceBytes_byteOff (t : List Char) {k j : Nat} (hkj : k ≤ j)
    (hj : j ≤ t.length) :
    sliceBytes t (byteOff t k) (byteOff t j) = some ((t.drop k).take (j - k)) := by
  unfold sliceBytes
  rw [if_pos (byteOff_mono t hkj)]
  rw [dropBytes_byteOff k t (by omega)]
  have hsplit : byteOff t j = byteOff t k + byteOff (t.drop k) (j - k) := by
    have : j = k + (j - k) := by omega
    conv_lhs => rw [this]
    exact byteOff_add t k (j - k)
  have hsub : byteOff t j - byteOff t k = byteOff (t.drop k) (j - k) := by omega
  simp only [Option.bind_eq_bind, Option.some_bind]
  rw [hsub, takeBytes_byteOff (j - k) (t.drop k) (by rw [List.length_drop]; omega)]

/-! ### Invariants of the line-break scan -/

theorem lineBreaks_mem {t : List Char} {p x : Nat} (h : x ∈ lineBreaks t p) :
    p + 1 ≤ x ∧ x ≤ p + byteLen t ∧ ∃ k, 1 ≤ k ∧ k ≤ t.length ∧ x = p + byteOff t k := by
  induction t generalizing p with
  | nil => simp [lineBreaks] at h
  | cons c rest ih =>
    rw [lineBreaks] at h
    have hlen : byteLen (c :: rest) = utf8Len c + byteLen rest := rfl
    split_ifs at h with h1 h2
    · obtain ⟨ha, hb, k, hk1, hk2, hk3⟩ := ih h
      have := utf8Len_pos c
      refine ⟨by omega, by omega, k + 1, by omega, by simp; omega, ?_⟩
      rw [byteOff_cons_succ]
      omega
    · rcases List.mem_cons.mp h with rfl | h3
      · have hc1 : utf8Len c = 1 := by
          rcases h2 with rfl | rfl
          · exact utf8Len_newline
          · exact utf8Len_cr
        refine ⟨le_refl _, by omega, 1, le_refl _, by simp, ?_⟩
        have : byteOff (c :: rest) 1 = utf8Len c + byteOff rest 0 := byteOff_cons_succ c rest 0
        rw [this, byteOff_zero, hc1]
      · obtain ⟨ha, hb, k, hk1, hk2, hk3⟩ := ih h3
        have := utf8Len_pos c
        refine ⟨by omega, by omega, k + 1, by omega, by simp; omega, ?_⟩
        rw [byteOff_cons_succ]
        omega
    · obtain ⟨ha, hb, k, hk1, hk2, hk3⟩ := ih h
      have := utf8Len_pos c
      refine ⟨by omega, by omega, k + 1, by omega, by simp; omega, ?_⟩
      rw [byteOff_cons_succ]
      omega

theorem lineBreaks_pairwise (t : List Char) (p : Nat) :
    (lineBreaks t p).Pairwise (· < ·) := by
  induction t generalizing p with
  | nil => simp [lineBreaks]
  | cons c rest ih =>
    rw [lineBreaks]
    split_ifs with h1 h2
    · exact ih _
    · refine List.Pairwise.cons ?_ (ih _)
      intro x hx
      have hc1 : utf8Len c = 1 := by
        rcases h2 with rfl | rfl
        · exact utf8Len_newline
        · exact utf8Len_cr
      have := (lineBreaks_mem hx).1
      omega
    · exact ih _

theorem lineStarts_pairwise (t : List Char) :
    (0 :: lineBreaks t 0).Pairwise (· < ·) := by
  refine List.Pairwise.cons ?_ (lineBreaks_pairwise t 0)
  intro x hx
  have := (lineBreaks_mem hx).1
  omega

theorem lineStarts_mem_le {t : List Char} {x : Nat} (h : x ∈ 0 :: lineBreaks t 0) :
    x ≤ byteLen t := by
  rcases List.mem_cons.mp h with rfl | h2
  · exact Nat.zero_le _
  · have := (lineBreaks_mem h2).2.1
    omega

theorem lineStarts_mem_boundary {t : List Char} {x : Nat}
    (h : x ∈ 0 :: lineBreaks t 0) : ∃ k, k ≤ t.length ∧ x = byteOff t k := by
  rcases List.mem_cons.mp h with rfl | h2
  · exact ⟨0, Nat.zero_le _, (byteOff_zero t).symm⟩
  · obtain ⟨_, _, k, _, hk2, hk3⟩ := lineBreaks_mem h2
    exact ⟨k, hk2, by omega⟩

/-! ### Characterization of the binary search over a sorted table -/

theorem compare_beq_lt (a b : Nat) :
    (compare a b == Ordering.lt) = decide (a < b) := by
  cases h : compare a b with
  | lt =>
    have h1 : a < b := Nat.compare_eq_lt.mp h
    have h2 : decide (a < b) = true := by simpa using h1
    rw [h2]
    rfl
  | eq =>
    have h1 : a = b := Nat.compare_eq_eq.mp h
    subst h1
    have h2 : decide (a < a) = false := by simp
    rw [h2]
    rfl
  | gt =>
    have h1 : b < a := Nat.compare_eq_gt.mp h
    have h2 : decide (a < b) = false := by
      simp
      omega
    rw [h2]
    rfl

theorem takeWhile_get_sat {p : α → Bool} :
    ∀ {xs : List α} {j : Nat}, j < (xs.takeWhile p).length →
      ∃ v, xs.get? j = some v ∧ p v = true := by
  intro xs
  induction xs with
  | nil => intro j h; simp [List.takeWhile] at h
  | cons c rest ih =>
    intro j h
    rw [List.takeWhile] at h
    cases hp : p c with
    | false => rw [hp] at h; simp at h
    | true =>
      rw [hp] at h
      simp only [List.length_cons] at h
      cases j with
      | zero => exact ⟨c, rfl, hp⟩
      | succ m =>
        obtain ⟨v, hv1, hv2⟩ := ih (j := m) (by omega)
        exact ⟨v, by simpa using hv1, hv2⟩

theorem takeWhile_get_fail {p : α → Bool} :
    ∀ {xs : List α} {v : α}, xs.get? (xs.takeWhile p).length = some v →
      p v = false := by
  intro xs
  induction xs with
  | nil => intro v h; simp at h
  | cons c rest ih =>
    intro v h
    rw [List.takeWhile] at h
    cases hp : p c with
    | false =>
      rw [hp] at h
      simp at h
      subst h
      exact hp
    | true =>
      rw [hp] at h
      simp only [List.length_cons] at h
      exact ih (by simpa using h)

theorem takeWhile_length_eq {p : α → Bool} :
    ∀ {xs : List α} {i : Nat} {v : α},
      (∀ j, j < i → ∃ w, xs.get? j = some w ∧ p w = true) →
      xs.get? i = some v → p v = false →
      (xs.takeWhile p).length = i := by
  intro xs
  induction xs with
  | nil => intro i v _ h2 _; simp at h2
  | cons c rest ih =>
    intro i v h1 h2 h3
    cases i with
    | zero =>
      simp at h2
      subst h2
      rw [List.takeWhile, h3]
      rfl
    | succ m =>
      obtain ⟨w, hw1, hw2⟩ := h1 0 (by omega)
      simp at hw1
      subst hw1
      rw [List.takeWhile, hw2]
      simp only [List.length_cons]
      have := ih (i := m) (v := v)
        (fun j hj => by
          obtain ⟨w', hw1', hw2'⟩ := h1 (j + 1) (by omega)
          exact ⟨w', by simpa using hw1', hw2'⟩)
        (by simpa using h2) h3
      omega

theorem sorted_get_lt {xs : List Nat} (hs : xs.Pairwise (· < ·)) {i j : Nat}
    {a b : Nat} (ha : xs.get? i = some a) (hb : xs.get? j = some b)
    (hij : i < j) : a < b := by
  obtain ⟨hi, ha'⟩ := List.get?_eq_some.mp ha
  obtain ⟨hj, hb'⟩ := List.get?_eq_some.mp hb
  subst ha' hb'
  exact List.pairwise_iff_get.mp hs ⟨i, hi⟩ ⟨j, hj⟩ hij
/-- Exact-hit behavior of `line_index` over a strictly sorted table: the
offset of a recorded line start is mapped back to that line. -/
theorem lineIndex_get {idx : LineIndex} (hs : idx.lineStarts.Pairwise (· < ·))
    {i v : Nat} (h : idx.lineStarts.get? i = some v) :
    idx.lineIndex v = i + 1 := by
  unfold LineIndex.lineIndex binarySearchBy
  simp only [compare_beq_lt]
  have htw : (idx.lineStarts.takeWhile (fun s => decide (s < v))).length = i := by
    refine takeWhile_length_eq (fun j hj => ?_) h ?_
    · have hjlt : j < idx.lineStarts.length := by
        obtain ⟨hi, _⟩ := List.get?_eq_some.mp h
        omega
      refine ⟨idx.lineStarts.get ⟨j, hjlt⟩, List.get?_eq_get hjlt, ?_⟩
      have := sorted_get_lt hs (List.get?_eq_get hjlt) h hj
      simpa using this
    · simp
  rw [htw, h]
  have hcc : compare v v = Ordering.eq := Nat.compare_eq_eq.mpr rfl
  simp [hcc]

/-- Master characterization of `line_index` over a strictly sorted table
whose first entry is 0: the result is one-based, its row holds the
greatest recorded start not exceeding the offset, and the search never
reaches the underflowing insertion point 0. -/
theorem lineIndex_spec (idx : LineIndex) (hs : idx.lineStarts.Pairwise (· < ·))
    (h0 : idx.lineStarts.get? 0 = some 0) (o : Nat) :
    ∃ row s, idx.lineIndex o = row + 1 ∧
      idx.lineStarts.get? row = some s ∧ s ≤ o ∧
      (∀ s', idx.lineStarts.get? (row + 1) = some s' → o < s') ∧
      binarySearchBy idx.lineStarts (fun s => compare s o) ≠ Except.error 0 := by
  unfold LineIndex.lineIndex binarySearchBy
  simp only [compare_beq_lt]
  set ip := (idx.lineStarts.takeWhile (fun s => decide (s < o))).length with hip
  cases hget : idx.lineStarts.get? ip with
  | some v =>
    have hvo : ¬ v < o := by
      have := takeWhile_get_fail (p := fun s => decide (s < o)) (hip ▸ hget)
      simpa using this
    by_cases hveq : v = o
    · subst hveq
      have hcc : compare v v = Ordering.eq := Nat.compare_eq_eq.mpr rfl
      refine ⟨ip, v, ?_, hget, le_refl _, ?_, ?_⟩
      · simp [hcc]
      · intro s' hs'
        exact sorted_get_lt hs hget hs' (by omega)
      · simp [hcc]
    · have hne : compare v o ≠ Ordering.eq := fun hc => hveq (Nat.compare_eq_eq.mp hc)
      have hippos : 1 ≤ ip := by
        rcases Nat.eq_zero_or_pos ip with hz | h
        · rw [hz] at hget
          rw [h0] at hget
          injection hget with hv
          omega
        · omega
      obtain ⟨w, hw1, hw2⟩ := @takeWhile_get_sat _ (fun s => decide (s < o))
        idx.lineStarts (ip - 1) (by omega)
      refine ⟨ip - 1, w, ?_, hw1, Nat.le_of_lt (by simpa using hw2), ?_, ?_⟩
      · simp [hne]
      · intro s' hs'
        have hiprw : ip - 1 + 1 = ip := by omega
        rw [hiprw, hget] at hs'
        injection hs' with hv
        omega
      · simp [hne]
        omega
  | none =>
    have hiplen : ip ≤ idx.lineStarts.length := by
      rw [hip]
      exact (List.takeWhile_sublist _).length_le
    have hipeq : ip = idx.lineStarts.length := by
      rcases Nat.lt_or_ge ip idx.lineStarts.length with h | h
      · rw [List.get?_eq_get h] at hget
        simp at hget
      · omega
    have hippos : 1 ≤ ip := by
      rcases Nat.eq_zero_or_pos ip with hz | h
      · rw [hipeq] at hz
        rw [List.get?_eq_none.mpr (by omega)] at h0
        simp at h0
      · omega
    obtain ⟨w, hw1, hw2⟩ := @takeWhile_get_sat _ (fun s => decide (s < o))
      idx.lineStarts (ip - 1) (by omega)
    refine ⟨ip - 1, w, rfl, hw1, Nat.le_of_lt (by simpa using hw2), ?_, ?_⟩
    · intro s' hs'
      have hiprw : ip - 1 + 1 = ip := by omega
      rw [hiprw, hget] at hs'
      exact absurd hs' (by simp)
    · simp
      omega

/-! ### Facts about the built index -/

theorem fromSourceText_starts {t : List Char} {idx : LineIndex}
    (h : LineIndex.fromSourceText t = some idx) :
    idx.lineStarts = 0 :: lineBreaks t 0 ∧ byteLen t ≤ u32Max := by
  unfold LineIndex.fromSourceText at h
  split_ifs at h with hle hk
  · injection h with h2
    subst h2
    exact ⟨rfl, hle⟩
  · injection h with h2
    subst h2
    exact ⟨rfl, hle⟩

theorem fromSourceText_sorted {t : List Char} {idx : LineIndex}
    (h : LineIndex.fromSourceText t = some idx) :
    idx.lineStarts.Pairwise (· < ·) := by
  rw [(fromSourceText_starts h).1]
  exact lineStarts_pairwise t

theorem fromSourceText_head {t : List Char} {idx : LineIndex}
    (h : LineIndex.fromSourceText t = some idx) :
    idx.lineStarts.get? 0 = some 0 := by
  rw [(fromSourceText_starts h).1]
  rfl

theorem fromSourceText_mem_le {t : List Char} {idx : LineIndex}
    (h : LineIndex.fromSourceText t = some idx) {x : Nat}
    (hx : x ∈ idx.lineStarts) : x ≤ byteLen t := by
  rw [(fromSourceText_starts h).1] at hx
  exact lineStarts_mem_le hx

theorem fromSourceText_mem_boundary {t : List Char} {idx : LineIndex}
    (h : LineIndex.fromSourceText t = some idx) {x : Nat}
    (hx : x ∈ idx.lineStarts) : ∃ k, k ≤ t.length ∧ x = byteOff t k := by
  rw [(fromSourceText_starts h).1] at hx
  exact lineStarts_mem_boundary hx

/-- Locating an offset in an index built by `from_source_text`: the result
of `line_index`, the line start it denotes (with its character boundary),
and, when the offset is within the text, the line range enclosing the
offset together with its boundaries. -/
theorem lineIndex_located (t : List Char) (idx : LineIndex)
    (hfrom : LineIndex.fromSourceText t = some idx) (o : Nat) :
    ∃ row s, idx.lineIndex o = row + 1 ∧
      row < idx.lineStarts.length ∧
      idx.lineStarts.get? row = some s ∧ s ≤ o ∧
      idx.lineStart (row + 1) t = some s ∧
      (∃ ks, ks ≤ t.length ∧ s = byteOff t ks) ∧
      (o ≤ byteLen t →
        ∃ e, idx.lineRange (row + 1) t = some (s, e) ∧ o ≤ e ∧
          ∃ ke, ke ≤ t.length ∧ e = byteOff t ke) := by
  have hs := fromSourceText_sorted hfrom
  have h0 := fromSourceText_head hfrom
  obtain ⟨row, s, hli, hrow, hso, hmax, _⟩ := lineIndex_spec idx hs h0 o
  have hrowlt : row < idx.lineStarts.length := (List.get?_eq_some.mp hrow).1
  have hsmem : s ∈ idx.lineStarts := List.get?_mem hrow
  have hsbd := fromSourceText_mem_boundary hfrom hsmem
  have hlstart : idx.lineStart (row + 1) t = some s := by
    unfold LineIndex.lineStart
    simp only [Nat.add_sub_cancel]
    rw [if_neg (by omega), hrow]
  refine ⟨row, s, hli, hrowlt, hrow, hso, hlstart, hsbd, fun ho => ?_⟩
  by_cases hrl : row + 1 = idx.lineStarts.length
  · refine ⟨byteLen t, ?_, ho, t.length, le_refl _, (byteOff_length t).symm⟩
    unfold LineIndex.lineRange
    rw [if_neg (by omega)]
    rw [hlstart]
    have hnext : idx.lineStart (row + 1 + 1) t = some (byteLen t) := by
      unfold LineIndex.lineStart
      simp only [Nat.add_sub_cancel]
      rw [if_pos (by omega)]
    rw [hnext]
    simp only [Option.bind_eq_bind, Option.some_bind]
    rw [if_pos (le_trans hso ho)]
  · have hnextlt : row + 1 < idx.lineStarts.length := by omega
    obtain ⟨e, he⟩ : ∃ e, idx.lineStarts.get? (row + 1) = some e := by
      rw [List.get?_eq_get hnextlt]
      exact ⟨_, rfl⟩
    have hemem : e ∈ idx.lineStarts := List.get?_mem he
    have hebd := fromSourceText_mem_boundary hfrom hemem
    have hse : s < e := sorted_get_lt hs hrow he (by omega)
    refine ⟨e, ?_, Nat.le_of_lt (hmax e he), hebd⟩
    unfold LineIndex.lineRange
    rw [if_neg (by omega)]
    rw [hlstart]
    have hnext : idx.lineStart (row + 1 + 1) t = some e := by
      unfold LineIndex.lineStart
      simp only [Nat.add_sub_cancel]
      rw [if_neg (by omega), he]
    rw [hnext]
    simp only [Option.bind_eq_bind, Option.some_bind]
    rw [if_pos (Nat.le_of_lt hse)]

/-! ### The encoding walks of the reverse conversion -/

theorem utf16Len_pos (c : Char) : 1 ≤ utf16Len c := by
  unfold utf16Len
  split_ifs <;> norm_num

theorem utf16Count_append (a b : List Char) :
    utf16Count (a ++ b) = utf16Count a + utf16Count b := by
  induction a with
  | nil => simp [utf16Count]
  | cons c rest ih => simp [utf16Count, ih]; omega

theorem utf16ByteOffset_exact (a : List Char) :
    ∀ (b : List Char) (byteOffset unitOffset : Nat),
      utf16ByteOffset (a ++ b) (unitOffset + utf16Count a) byteOffset unitOffset =
        byteOffset + byteLen a := by
  induction a with
  | nil =>
    intro b byteOffset unitOffset
    cases b with
    | nil => simp [utf16ByteOffset, utf16Count, byteLen]
    | cons c rest =>
      simp only [List.nil_append, utf16Count, byteLen]
      rw [utf16ByteOffset]
      rw [if_pos (by omega)]
      omega
  | cons c rest ih =>
    intro b byteOffset unitOffset
    simp only [List.cons_append]
    rw [utf16ByteOffset]
    have h1 := utf16Len_pos c
    rw [if_neg (by simp [utf16Count]; omega)]
    have h2 : unitOffset + utf16Count (c :: rest) =
        (unitOffset + utf16Len c) + utf16Count rest := by
      simp [utf16Count]
      omega
    rw [h2, ih b (byteOffset + utf8Len c) (unitOffset + utf16Len c)]
    simp [byteLen]
    omega

/-! ### Evaluation of the conversion functions on a located line -/

theorem sourceLocation_eval_ascii (idx : LineIndex) (t : List Char) (o : Nat)
    (enc : PositionEncoding) (row s : Nat) (hk : idx.kind.isAscii = true)
    (hli : idx.lineIndex o = row + 1)
    (hlstart : idx.lineStart (row + 1) t = some s) :
    idx.sourceLocation o t enc = some ⟨row + 1, (o - s) + 1⟩ := by
  unfold LineIndex.sourceLocation
  rw [hli]
  dsimp only
  rw [hlstart]
  simp only [Option.bind_eq_bind, Option.some_bind]
  rw [if_pos hk]

theorem sourceLocation_eval_utf8 (idx : LineIndex) (t : List Char) (o : Nat)
    (row s : Nat) (hk : idx.kind.isAscii = false)
    (hli : idx.lineIndex o = row + 1)
    (hlstart : idx.lineStart (row + 1) t = some s) :
    idx.sourceLocation o t .Utf8 = some ⟨row + 1, (o - s) + 1⟩ := by
  unfold LineIndex.sourceLocation
  rw [hli]
  dsimp only
  rw [hlstart]
  simp only [Option.bind_eq_bind, Option.some_bind]
  rw [if_neg (by simp [hk])]

theorem sourceLocation_eval_utf16 (idx : LineIndex) (t : List Char) (o : Nat)
    (row s : Nat) (A : List Char) (hk : idx.kind.isAscii = false)
    (hli : idx.lineIndex o = row + 1)
    (hlstart : idx.lineStart (row + 1) t = some s)
    (hslice : sliceBytes t s o = some A) :
    idx.sourceLocation o t .Utf16 = some ⟨row + 1, utf16Count A + 1⟩ := by
  unfold LineIndex.sourceLocation
  rw [hli]
  dsimp only
  rw [hlstart]
  simp only [Option.bind_eq_bind, Option.some_bind]
  rw [if_neg (by simp [hk])]
  rw [hslice]
  rfl

theorem sourceLocation_eval_utf32 (idx : LineIndex) (t : List Char) (o : Nat)
    (row s : Nat) (A : List Char) (hk : idx.kind.isAscii = false)
    (hli : idx.lineIndex o = row + 1)
    (hlstart : idx.lineStart (row + 1) t = some s)
    (hslice : sliceBytes t s o = some A) :
    idx.sourceLocation o t .Utf32 = some ⟨row + 1, A.length + 1⟩ := by
  unfold LineIndex.sourceLocation
  rw [hli]
  dsimp only
  rw [hlstart]
  simp only [Option.bind_eq_bind, Option.some_bind]
  rw [if_neg (by simp [hk])]
  rw [hslice]
  rfl

theorem offsetOf_eval_ascii (idx : LineIndex) (t : List Char)
    (enc : PositionEncoding) (row s e co : Nat) (hk : idx.kind.isAscii = true)
    (hrowle : row ≤ idx.lineStarts.length)
    (hrange : idx.lineRange (row + 1) t = some (s, e))
    (hco : co ≤ u32Max) :
    idx.offsetOf ⟨row + 1, co + 1⟩ t enc = some (s + min co (e - s)) := by
  unfold LineIndex.offsetOf
  dsimp only
  simp only [Nat.add_sub_cancel]
  rw [if_neg (by omega)]
  rw [hrange]
  simp only [Option.bind_eq_bind, Option.some_bind]
  rw [if_pos hk, if_pos hco]

theorem offsetOf_eval_utf8 (idx : LineIndex) (t : List Char)
    (row s e co : Nat) (L : List Char) (hk : idx.kind.isAscii = false)
    (hrowle : row ≤ idx.lineStarts.length)
    (hrange : idx.lineRange (row + 1) t = some (s, e))
    (hslice : sliceBytes t s e = some L)
    (hco : co ≤ u32Max) :
    idx.offsetOf ⟨row + 1, co + 1⟩ t .Utf8 = some (s + min co (e - s)) := by
  unfold LineIndex.offsetOf
  dsimp only
  simp only [Nat.add_sub_cancel]
  rw [if_neg (by omega)]
  rw [hrange]
  simp only [Option.bind_eq_bind, Option.some_bind]
  rw [if_neg (by simp [hk])]
  rw [hslice]
  simp only [Option.bind_eq_bind, Option.some_bind]
  rw [if_pos hco]

theorem offsetOf_eval_utf16 (idx : LineIndex) (t : List Char)
    (row s e co : Nat) (L : List Char) (hk : idx.kind.isAscii = false)
    (hrowle : row ≤ idx.lineStarts.length)
    (hrange : idx.lineRange (row + 1) t = some (s, e))
    (hslice : sliceBytes t s e = some L) :
    idx.offsetOf ⟨row + 1, co + 1⟩ t .Utf16 =
      some (s + min (utf16ByteOffset L co 0 0) (e - s)) := by
  unfold LineIndex.offsetOf
  dsimp only
  simp only [Nat.add_sub_cancel]
  rw [if_neg (by omega)]
  rw [hrange]
  simp only [Option.bind_eq_bind, Option.some_bind]
  rw [if_neg (by simp [hk])]
  rw [hslice]
  simp only [Option.bind_eq_bind, Option.some_bind]

theorem offsetOf_eval_utf32 (idx : LineIndex) (t : List Char)
    (row s e co : Nat) (L : List Char) (hk : idx.kind.isAscii = false)
    (hrowle : row ≤ idx.lineStarts.length)
    (hrange : idx.lineRange (row + 1) t = some (s, e))
    (hslice : sliceBytes t s e = some L) :
    idx.offsetOf ⟨row + 1, co + 1⟩ t .Utf32 =
      some (s + min (byteLen (L.take co)) (e - s)) := by
  unfold LineIndex.offsetOf
  dsimp only
  simp only [Nat.add_sub_cancel]
  rw [if_neg (by omega)]
  rw [hrange]
  simp only [Option.bind_eq_bind, Option.some_bind]
  rw [if_neg (by simp [hk])]
  rw [hslice]
  simp only [Option.bind_eq_bind, Option.some_bind]

/-! ### Invariants of the block-comment grouping loop -/

theorem blockStep_cases {source : List Char} {st : BlockState} {r : Nat × Nat}
    {st' : BlockState} (h : blockStep source st r = some st') :
    (∃ le, strFullLineEnd source r.1 = some le ∧ st'.prevLineEnd = some le) ∧
    (isEmptyComment r source = some true → st.nonEmpty = false → st'.nonEmpty = false) ∧
    ((st'.out = st.out ++ flushBlock st ∧
        (st'.block = [] ∨ (st'.block = [r.1] ∧ isOwnLine r.1 source = some true))) ∨
      (st'.out = st.out ∧ st'.block = st.block ++ [r.1] ∧
        isOwnLine r.1 source = some true)) := by
  unfold blockStep at h
  dsimp only at h
  cases hls : strLineStart source r.1 with
  | none => rw [hls] at h; simp at h
  | some ls =>
  rw [hls] at h
  simp only [Option.bind_eq_bind, Option.some_bind] at h
  cases hfle : strFullLineEnd source r.1 with
  | none => rw [hfle] at h; simp at h
  | some le =>
  rw [hfle] at h
  simp only [Option.some_bind] at h
  cases hown : isOwnLine r.1 source with
  | none => rw [hown] at h; simp at h
  | some ow =>
  rw [hown] at h
  simp only [Option.some_bind] at h
  cases ow with
  | false =>
    rw [if_pos rfl] at h
    injection h with h'
    subst h'
    exact ⟨⟨le, rfl, rfl⟩, fun _ _ => rfl, Or.inl ⟨rfl, Or.inl rfl⟩⟩
  | true =>
    rw [if_neg (by simp)] at h
    cases hprev : st.prevLineEnd with
    | some p =>
      rw [hprev] at h
      simp only [] at h
      cases hbr : containsLineBreak source p ls with
      | none => rw [hbr] at h; simp at h
      | some blank =>
      rw [hbr] at h
      simp only [Option.some_bind] at h
      cases blank with
      | true =>
        rw [if_pos rfl] at h
        cases hem : isEmptyComment r source with
        | none => rw [hem] at h; simp at h
        | some em =>
        rw [hem] at h
        simp only [Option.some_bind] at h
        injection h with h'
        subst h'
        refine ⟨⟨le, rfl, rfl⟩, fun hemt _ => ?_, Or.inl ⟨rfl, Or.inr ⟨rfl, rfl⟩⟩⟩
        injection hemt with hemv
        subst hemv
        rfl
      | false =>
        rw [if_neg (by simp)] at h
        cases hcol : st.column with
        | some cc =>
          rw [hcol] at h
          simp only [] at h
          by_cases hceq : r.1 - ls = cc
          · rw [if_pos hceq] at h
            cases hem : isEmptyComment r source with
            | none => rw [hem] at h; simp at h
            | some em =>
            rw [hem] at h
            simp only [Option.some_bind] at h
            injection h with h'
            subst h'
            refine ⟨⟨le, rfl, rfl⟩, fun hemt hne => ?_, Or.inr ⟨rfl, rfl, rfl⟩⟩
            injection hemt with hemv
            subst hemv
            simp [hne]
          · rw [if_neg hceq] at h
            cases hem : isEmptyComment r source with
            | none => rw [hem] at h; simp at h
            | some em =>
            rw [hem] at h
            simp only [Option.some_bind] at h
            injection h with h'
            subst h'
            refine ⟨⟨le, rfl, rfl⟩, fun hemt _ => ?_, Or.inl ⟨rfl, Or.inr ⟨rfl, rfl⟩⟩⟩
            injection hemt with hemv
            subst hemv
            rfl
        | none =>
          rw [hcol] at h
          simp only [] at h
          cases hem : isEmptyComment r source with
          | none => rw [hem] at h; simp at h
          | some em =>
          rw [hem] at h
          simp only [Option.some_bind] at h
          injection h with h'
          subst h'
          refine ⟨⟨le, rfl, rfl⟩, fun hemt _ => ?_, Or.inl ⟨rfl, Or.inr ⟨rfl, rfl⟩⟩⟩
          injection hemt with hemv
          subst hemv
          rfl
    | none =>
      rw [hprev] at h
      simp only [Option.some_bind] at h
      rw [if_neg (by simp)] at h
      cases hcol : st.column with
      | some cc =>
        rw [hcol] at h
        simp only [] at h
        by_cases hceq : r.1 - ls = cc
        · rw [if_pos hceq] at h
          cases hem : isEmptyComment r source with
          | none => rw [hem] at h; simp at h
          | some em =>
          rw [hem] at h
          simp only [Option.some_bind] at h
          injection h with h'
          subst h'
          refine ⟨⟨le, rfl, rfl⟩, fun hemt hne => ?_, Or.inr ⟨rfl, rfl, rfl⟩⟩
          injection hemt with hemv
          subst hemv
          simp [hne]
        · rw [if_neg hceq] at h
          cases hem : isEmptyComment r source with
          | none => rw [hem] at h; simp at h
          | some em =>
          rw [hem] at h
          simp only [Option.some_bind] at h
          injection h with h'
          subst h'
          refine ⟨⟨le, rfl, rfl⟩, fun hemt _ => ?_, Or.inl ⟨rfl, Or.inr ⟨rfl, rfl⟩⟩⟩
          injection hemt with hemv
          subst hemv
          rfl
      | none =>
        rw [hcol] at h
        simp only [] at h
        cases hem : isEmptyComment r source with
        | none => rw [hem] at h; simp at h
        | some em =>
        rw [hem] at h
        simp only [Option.some_bind] at h
        injection h with h'
        subst h'
        refine ⟨⟨le, rfl, rfl⟩, fun hemt _ => ?_, Or.inl ⟨rfl, Or.inr ⟨rfl, rfl⟩⟩⟩
        injection hemt with hemv
        subst hemv
        rfl

theorem flushBlock_of_nonEmpty_false {st : BlockState} (h : st.nonEmpty = false) :
    flushBlock st = [] := by
  unfold flushBlock
  rw [if_neg]
  simp [h]

theorem flushBlock_of_short {st : BlockState} (h : st.block.length ≤ 1) :
    flushBlock st = [] := by
  unfold flushBlock
  rw [if_neg]
  omega

theorem flushBlock_sub {st : BlockState} {o : Nat} (h : o ∈ flushBlock st) :
    o ∈ st.block := by
  unfold flushBlock at h
  split_ifs at h
  · exact h
  · simp at h

theorem blockFold_mem {source : List Char} :
    ∀ (ranges : List (Nat × Nat)) (st st' : BlockState),
      List.foldlM (blockStep source) st ranges = some st' →
      ∀ o, o ∈ st'.out ++ st'.block →
        o ∈ st.out ++ st.block ∨ ∃ r ∈ ranges, o = r.1 ∧ isOwnLine r.1 source = some true := by
  intro ranges
  induction ranges with
  | nil =>
    intro st st' h o ho
    rw [List.foldlM_nil] at h
    injection h with h'
    subst h'
    exact Or.inl ho
  | cons r rest ih =>
    intro st st' h o ho
    rw [List.foldlM_cons] at h
    cases hstep : blockStep source st r with
    | none => rw [hstep] at h; simp at h
    | some st1 =>
      rw [hstep] at h
      simp only [Option.bind_eq_bind, Option.some_bind] at h
      rcases ih st1 st' h o ho with h1 | ⟨r', hr', he⟩
      · obtain ⟨_, _, hshape⟩ := blockStep_cases hstep
        rcases hshape with ⟨hout, hblk⟩ | ⟨hout, hblk, hol⟩
        · rcases List.mem_append.mp h1 with h2 | h2
          · rw [hout] at h2
            rcases List.mem_append.mp h2 with h3 | h3
            · exact Or.inl (List.mem_append.mpr (Or.inl h3))
            · exact Or.inl (List.mem_append.mpr (Or.inr (flushBlock_sub h3)))
          · rcases hblk with hb | ⟨hb, holn⟩
            · rw [hb] at h2
              simp at h2
            · rw [hb] at h2
              simp at h2
              exact Or.inr ⟨r, List.mem_cons_self r rest, h2, holn⟩
        · rcases List.mem_append.mp h1 with h2 | h2
          · rw [hout] at h2
            exact Or.inl (List.mem_append.mpr (Or.inl h2))
          · rw [hblk] at h2
            rcases List.mem_append.mp h2 with h3 | h3
            · exact Or.inl (List.mem_append.mpr (Or.inr h3))
            · simp at h3
              exact Or.inr ⟨r, List.mem_cons_self r rest, h3, hol⟩
      · exact Or.inr ⟨r', List.mem_cons_of_mem r hr', he⟩

theorem blockFold_all_empty {source : List Char} :
    ∀ (ranges : List (Nat × Nat)) (st st' : BlockState),
      List.foldlM (blockStep source) st ranges = some st' →
      (∀ r ∈ ranges, isEmptyComment r source = some true) →
      st.nonEmpty = false → st.out = [] →
      st'.nonEmpty = false ∧ st'.out = [] := by
  intro ranges
  induction ranges with
  | nil =>
    intro st st' h _ hne hout
    rw [List.foldlM_nil] at h
    injection h with h'
    subst h'
    exact ⟨hne, hout⟩
  | cons r rest ih =>
    intro st st' h hall hne hout
    rw [List.foldlM_cons] at h
    cases hstep : blockStep source st r with
    | none => rw [hstep] at h; simp at h
    | some st1 =>
      rw [hstep] at h
      simp only [Option.bind_eq_bind, Option.some_bind] at h
      obtain ⟨_, hnee, hshape⟩ := blockStep_cases hstep
      have hne1 : st1.nonEmpty = false :=
        hnee (hall r (List.mem_cons_self r rest)) hne
      have hout1 : st1.out = [] := by
        rcases hshape with ⟨ho1, _⟩ | ⟨ho1, _, _⟩
        · rw [ho1, hout, flushBlock_of_nonEmpty_false hne]
          rfl
        · rw [ho1, hout]
      exact ih st1 st' h (fun r' hr' => hall r' (List.mem_cons_of_mem r hr')) hne1 hout1

/-! ### Facts for the remaining claims -/

theorem lastNewlineEnd_none {pre : List Char}
    (h : ∀ c ∈ pre, ¬(c = '\n' ∨ c = '\r')) :
    ∀ p, lastNewlineEnd pre p = none := by
  induction pre with
  | nil => intro p; rfl
  | cons c rest ih =>
    intro p
    rw [lastNewlineEnd]
    rw [ih (fun c' hc' => h c' (List.mem_cons_of_mem c hc')) (p + utf8Len c)]
    rw [if_neg (h c (List.mem_cons_self c rest))]

theorem binarySearchBy_ok {xs : List α} {f : α → Ordering} {i : Nat}
    (h : binarySearchBy xs f = Except.ok i) :
    ∃ v, xs.get? i = some v ∧ f v = Ordering.eq := by
  unfold binarySearchBy at h
  dsimp only at h
  cases hget : xs.get? (xs.takeWhile (fun x => f x == Ordering.lt)).length with
  | none => rw [hget] at h; simp at h
  | some x =>
    rw [hget] at h
    dsimp only at h
    by_cases hx : f x = Ordering.eq
    · rw [if_pos hx] at h
      injection h with h'
      subst h'
      exact ⟨x, hget, hx⟩
    · rw [if_neg hx] at h
      simp at h

theorem char_toNat_inj {a b : Char} (h : a.toNat = b.toNat) : a = b :=
  Char.ext (UInt32.ext h)

theorem strCmp_eq_iff (a : List Char) :
    ∀ b : List Char, strCmp a b = Ordering.eq ↔ a = b := by
  induction a with
  | nil =>
    intro b
    cases b with
    | nil => simp [strCmp]
    | cons c rest => simp [strCmp]
  | cons c rest ih =>
    intro b
    cases b with
    | nil => simp [strCmp]
    | cons d ds =>
      rw [strCmp]
      cases hc : compare c.toNat d.toNat with
      | lt =>
        simp only []
        constructor
        · intro hcontra
          exact absurd hcontra (by simp)
        · intro hcontra
          injection hcontra with h1 h2
          subst h1
          rw [Nat.compare_eq_lt] at hc
          omega
      | eq =>
        simp only []
        have hcd : c = d := char_toNat_inj (Nat.compare_eq_eq.mp hc)
        subst hcd
        rw [ih ds]
        constructor
        · intro h1
          rw [h1]
        · intro h1
          injection h1
      | gt =>
        simp only []
        constructor
        · intro hcontra
          exact absurd hcontra (by simp)
        · intro hcontra
          injection hcontra with h1 h2
          subst h1
          rw [Nat.compare_eq_gt] at hc
          omega

theorem sorted_last_le {xs : List Nat} (hs : xs.Pairwise (· < ·)) {row s o : Nat}
    (_hrow : xs.get? row = some s)
    (hmax : ∀ s', xs.get? (row + 1) = some s' → o < s') :
    ∀ j v, xs.get? j = some v → v ≤ o → j ≤ row := by
  intro j v hj hv
  by_contra hc
  push_neg at hc
  have hjlen : j < xs.length := (List.get?_eq_some.mp hj).1
  have hrow1 : row + 1 < xs.length := by omega
  have hw : xs.get? (row + 1) = some (xs.get ⟨row + 1, hrow1⟩) := List.get?_eq_get hrow1
  have how : o < xs.get ⟨row + 1, hrow1⟩ := hmax _ hw
  rcases Nat.eq_or_lt_of_le (show row + 1 ≤ j by omega) with he | hlt
  · rw [← he] at hj
    rw [hw] at hj
    injection hj with h1
    omega
  · have := sorted_get_lt hs hw hj hlt
    omega

theorem sliceBytes_none_of_gt (t : List Char) {ks o : Nat} (hks : ks ≤ t.length)
    (h : byteLen t < o) : sliceBytes t (byteOff t ks) o = none := by
  unfold sliceBytes
  rw [if_pos (le_trans (byteOff_le_byteLen t ks) (le_of_lt h))]
  rw [dropBytes_byteOff ks t hks]
  simp only [Option.some_bind]
  apply takeBytes_none_of_gt
  have hsum : byteLen t = byteOff t ks + byteLen (t.drop ks) := by
    conv_lhs => rw [← List.take_append_drop ks t]
    rw [byteLen_append]
    rfl
  omega

theorem sourceLocation_eval_utf16_none (idx : LineIndex) (t : List Char) (o : Nat)
    (row s : Nat) (hk : idx.kind.isAscii = false)
    (hli : idx.lineIndex o = row + 1)
    (hlstart : idx.lineStart (row + 1) t = some s)
    (hslice : sliceBytes t s o = none) :
    idx.sourceLocation o t .Utf16 = none := by
  unfold LineIndex.sourceLocation
  rw [hli]
  dsimp only
  rw [hlstart]
  simp only [Option.bind_eq_bind, Option.some_bind]
  rw [if_neg (by simp [hk])]
  rw [hslice]
  rfl

theorem sourceLocation_eval_utf32_none (idx : LineIndex) (t : List Char) (o : Nat)
    (row s : Nat) (hk : idx.kind.isAscii = false)
    (hli : idx.lineIndex o = row + 1)
    (hlstart : idx.lineStart (row + 1) t = some s)
    (hslice : sliceBytes t s o = none) :
    idx.sourceLocation o t .Utf32 = none := by
  unfold LineIndex.sourceLocation
  rw [hli]
  dsimp only
  rw [hlstart]
  simp only [Option.bind_eq_bind, Option.some_bind]
  rw [if_neg (by simp [hk])]
  rw [hslice]
  rfl

theorem byteLen_replicate (n : Nat) : byteLen (List.replicate n 'a') = n := by
  induction n with
  | zero => rfl
  | succ m ih =>
    rw [List.replicate_succ, byteLen, ih]
    have h1 : utf8Len 'a' = 1 := by decide
    omega

/-! ### Refinement of the grouping loop against the recorded blocks -/

theorem flushBlock_eq_close (st : BlockState) :
    flushBlock st = ((specCloseBlock st.block st.nonEmpty).map emitGroup).flatten := by
  unfold flushBlock specCloseBlock emitGroup
  by_cases hb : st.block = []
  · rw [if_pos hb, hb]
    simp
  · rw [if_neg hb]
    simp only [List.map_cons, List.map_nil, List.flatten_cons, List.flatten_nil,
      List.append_nil]

theorem blockStep_projGroup (source : List Char) (gt : GroupState) (r : Nat × Nat) :
    blockStep source (projGroup gt) r = (specGroupStep source gt r).map projGroup := by
  unfold blockStep specGroupStep
  dsimp only [projGroup]
  cases strLineStart source r.1 with
  | none => rfl
  | some ls =>
  simp only [Option.bind_eq_bind, Option.some_bind]
  cases strFullLineEnd source r.1 with
  | none => rfl
  | some le =>
  simp only [Option.some_bind]
  cases isOwnLine r.1 source with
  | none => rfl
  | some ow =>
  simp only [Option.some_bind]
  cases ow with
  | false =>
    simp only [Bool.true_eq_false, Bool.false_eq_true, eq_self_iff_true, if_true, if_false, Option.map_some', projGroup, List.map_append,
      List.flatten_append, flushBlock_eq_close]
  | true =>
    simp only [Bool.true_eq_false, Bool.false_eq_true, eq_self_iff_true, if_true, if_false]
    cases gt.prevLineEnd with
    | none =>
      dsimp only
      cases gt.column with
      | some cc =>
        dsimp only
        by_cases hceq : r.1 - ls = cc
        · rw [if_pos hceq, if_pos hceq]
          cases isEmptyComment r source with
          | none => rfl
          | some em =>
          simp only [Option.some_bind, Option.map_some', projGroup]
        · rw [if_neg hceq, if_neg hceq]
          cases isEmptyComment r source with
          | none => rfl
          | some em =>
          simp only [Option.some_bind, Option.map_some', projGroup, List.map_append,
            List.flatten_append, flushBlock_eq_close]
      | none =>
        dsimp only
        cases isEmptyComment r source with
        | none => rfl
        | some em =>
        simp only [Option.some_bind, Option.map_some', projGroup, List.map_append,
          List.flatten_append, flushBlock_eq_close]
    | some p =>
      dsimp only
      cases containsLineBreak source p ls with
      | none => rfl
      | some blank =>
      simp only [Option.some_bind]
      cases blank with
      | true =>
        simp only [Bool.true_eq_false, Bool.false_eq_true, eq_self_iff_true, if_true, if_false]
        cases isEmptyComment r source with
        | none => rfl
        | some em =>
        simp only [Option.some_bind, Option.map_some', projGroup, List.map_append,
          List.flatten_append, flushBlock_eq_close]
      | false =>
        simp only [Bool.true_eq_false, Bool.false_eq_true, eq_self_iff_true, if_true, if_false]
        cases gt.column with
        | some cc =>
          dsimp only
          by_cases hceq : r.1 - ls = cc
          · rw [if_pos hceq, if_pos hceq]
            cases isEmptyComment r source with
            | none => rfl
            | some em =>
            simp only [Option.some_bind, Option.map_some', projGroup]
          · rw [if_neg hceq, if_neg hceq]
            cases isEmptyComment r source with
            | none => rfl
            | some em =>
            simp only [Option.some_bind, Option.map_some', projGroup, List.map_append,
              List.flatten_append, flushBlock_eq_close]
        | none =>
          dsimp only
          cases isEmptyComment r source with
          | none => rfl
          | some em =>
          simp only [Option.some_bind, Option.map_some', projGroup, List.map_append,
            List.flatten_append, flushBlock_eq_close]

theorem specFold_projGroup (source : List Char) :
    ∀ (ranges : List (Nat × Nat)) (gt : GroupState),
      List.foldlM (blockStep source) (projGroup gt) ranges =
        (List.foldlM (specGroupStep source) gt ranges).map projGroup := by
  intro ranges
  induction ranges with
  | nil =>
    intro gt
    rw [List.foldlM_nil, List.foldlM_nil]
    rfl
  | cons r rest ih =>
    intro gt
    rw [List.foldlM_cons, List.foldlM_cons]
    simp only [Option.bind_eq_bind]
    rw [blockStep_projGroup]
    cases hg : specGroupStep source gt r with
    | none => rfl
    | some gt1 =>
      simp only [Option.map_some', Option.some_bind]
      exact ih gt1

theorem blockComments_eq_specGroups (ranges : List (Nat × Nat)) (source : List Char) :
    blockComments ranges source =
      (specGroups ranges source).map (fun gs => (gs.map emitGroup).flatten) := by
  unfold blockComments specGroups
  have hinit : (⟨[], [], none, false, none⟩ : BlockState) =
      projGroup ⟨[], [], none, false, none⟩ := rfl
  rw [hinit, specFold_projGroup]
  cases List.foldlM (specGroupStep source) ⟨[], [], none, false, none⟩ ranges with
  | none => rfl
  | some final =>
    simp only [Option.map_some', Option.bind_eq_bind, Option.some_bind]
    dsimp only [projGroup]
    rw [flushBlock_eq_close]
    dsimp only
    rw [List.map_append, List.flatten_append]

theorem blockComments_mem_group {ranges : List (Nat × Nat)} {source : List Char}
    {out : List Nat} {o : Nat} (hbc : blockComments ranges source = some out)
    (ho : o ∈ out) :
    ∃ gs block ne, specGroups ranges source = some gs ∧ (block, ne) ∈ gs ∧
      o ∈ block ∧ block.length > 1 ∧ ne = true := by
  have heq := blockComments_eq_specGroups ranges source
  rw [hbc] at heq
  cases hgs : specGroups ranges source with
  | none => rw [hgs] at heq; simp at heq
  | some gs =>
    rw [hgs] at heq
    simp only [Option.map_some'] at heq
    injection heq with heq'
    rw [heq'] at ho
    obtain ⟨l, hl, hol⟩ := List.mem_flatten.mp ho
    obtain ⟨g, hg, hgl⟩ := List.mem_map.mp hl
    rw [← hgl] at hol
    unfold emitGroup at hol
    split_ifs at hol with hc
    · refine ⟨gs, g.1, g.2, rfl, ?_, hol, hc.1, hc.2⟩
      rw [Prod.mk.eta]
      exact hg
    · simp at hol

/-! ### The claims -/

/-- C1: for every text, every byte offset in bounds that lies on a character
boundary, and every position encoding, `offset` applied to the result of
`source_location` on the line index built from the text returns the
original byte offset: the two conversions are mutually inverse on valid
offsets. -/
theorem claim_C1_offset_inverse (t : List Char) (o : Nat) (enc : PositionEncoding)
    (idx : LineIndex) (hfrom : LineIndex.fromSourceText t = some idx)
    (ho : o ≤ byteLen t) (hb : isCharBoundary t o = true) :
    (idx.sourceLocation o t enc).bind (fun loc => idx.offsetOf loc t enc) = some o := by
  obtain ⟨ko, hko, hoeq⟩ := (isCharBoundary_iff t o).mp hb
  obtain ⟨row, s, hli, hrowlt, hrow, hso, hlstart, ⟨ks, hks, hseq⟩, hrest⟩ :=
    lineIndex_located t idx hfrom o
  obtain ⟨e, hrange, hoe, ke, hke, heeq⟩ := hrest ho
  have hle := (fromSourceText_starts hfrom).2
  have hks_ko : ks ≤ ko := le_of_byteOff_le t hks (by rw [← hseq, ← hoeq]; exact hso)
  have hko_ke : ko ≤ ke := le_of_byteOff_le t hko (by rw [← hoeq, ← heeq]; exact hoe)
  have hsliceA : sliceBytes t s o = some ((t.drop ks).take (ko - ks)) := by
    rw [hseq, hoeq]
    exact sliceBytes_byteOff t hks_ko hko
  have hsliceL : sliceBytes t s e = some ((t.drop ks).take (ke - ks)) := by
    rw [hseq, heeq]
    exact sliceBytes_byteOff t (le_trans hks_ko hko_ke) hke
  have hAlen : ((t.drop ks).take (ko - ks)).length = ko - ks := by
    rw [List.length_take, List.length_drop]
    omega
  have hAbyte : byteLen ((t.drop ks).take (ko - ks)) = o - s := by
    have hsplit : byteOff t ko = byteOff t ks + byteOff (t.drop ks) (ko - ks) := by
      have h' : ko = ks + (ko - ks) := by omega
      conv_lhs => rw [h']
      exact byteOff_add t ks (ko - ks)
    have hdef : byteLen ((t.drop ks).take (ko - ks)) = byteOff (t.drop ks) (ko - ks) := rfl
    omega
  have hAL : ((t.drop ks).take (ke - ks)).take (ko - ks) = (t.drop ks).take (ko - ks) := by
    rw [List.take_take]
    have hmin : (ko - ks) ⊓ (ke - ks) = ko - ks := min_eq_left (by omega)
    rw [hmin]
  have hsplitL : (t.drop ks).take (ko - ks) ++ ((t.drop ks).take (ke - ks)).drop (ko - ks) =
      (t.drop ks).take (ke - ks) := by
    conv_lhs => rw [← hAL]
    exact List.take_append_drop _ _
  cases hk : idx.kind.isAscii with
  | true =>
    rw [sourceLocation_eval_ascii idx t o enc row s hk hli hlstart]
    show idx.offsetOf ⟨row + 1, (o - s) + 1⟩ t enc = some o
    rw [offsetOf_eval_ascii idx t enc row s e (o - s) hk (le_of_lt hrowlt) hrange (by omega)]
    congr 1
    omega
  | false =>
    cases enc with
    | Utf8 =>
      rw [sourceLocation_eval_utf8 idx t o row s hk hli hlstart]
      show idx.offsetOf ⟨row + 1, (o - s) + 1⟩ t .Utf8 = some o
      rw [offsetOf_eval_utf8 idx t row s e (o - s) ((t.drop ks).take (ke - ks)) hk
        (le_of_lt hrowlt) hrange hsliceL (by omega)]
      congr 1
      omega
    | Utf16 =>
      rw [sourceLocation_eval_utf16 idx t o row s ((t.drop ks).take (ko - ks)) hk hli
        hlstart hsliceA]
      show idx.offsetOf ⟨row + 1, utf16Count ((t.drop ks).take (ko - ks)) + 1⟩ t .Utf16 =
        some o
      rw [offsetOf_eval_utf16 idx t row s e (utf16Count ((t.drop ks).take (ko - ks)))
        ((t.drop ks).take (ke - ks)) hk (le_of_lt hrowlt) hrange hsliceL]
      have hwalk : utf16ByteOffset ((t.drop ks).take (ke - ks))
          (utf16Count ((t.drop ks).take (ko - ks))) 0 0 = o - s := by
        conv_lhs => rw [← hsplitL]
        have h2 := utf16ByteOffset_exact ((t.drop ks).take (ko - ks))
          (((t.drop ks).take (ke - ks)).drop (ko - ks)) 0 0
        rw [Nat.zero_add] at h2
        rw [h2, Nat.zero_add, hAbyte]
      rw [hwalk]
      congr 1
      omega
    | Utf32 =>
      rw [sourceLocation_eval_utf32 idx t o row s ((t.drop ks).take (ko - ks)) hk hli
        hlstart hsliceA]
      show idx.offsetOf ⟨row + 1, ((t.drop ks).take (ko - ks)).length + 1⟩ t .Utf32 =
        some o
      rw [offsetOf_eval_utf32 idx t row s e (((t.drop ks).take (ko - ks)).length)
        ((t.drop ks).take (ke - ks)) hk (le_of_lt hrowlt) hrange hsliceL]
      rw [hAlen, hAL, hAbyte]
      congr 1
      omega

/-- Witness for C1 on the non-ASCII text ab\u{e9} over UTF-16 at the
character boundary 3. -/
theorem claim_C1_offset_inverse_witness :
    ((⟨[0, 4], IndexKind.Utf8⟩ : LineIndex).sourceLocation 3 "aé\nbé".toList
        .Utf16).bind
      (fun loc => (⟨[0, 4], IndexKind.Utf8⟩ : LineIndex).offsetOf loc
        "aé\nbé".toList .Utf16) = some 3 :=
  claim_C1_offset_inverse "aé\nbé".toList 3 .Utf16 ⟨[0, 4], IndexKind.Utf8⟩
    (by decide) (by decide) (by decide)

/-- C2: the line-start table built by `from_source_text` has 0 as its first
element and is strictly increasing (hence duplicate-free); the index is an
immutable value, so the table exposed by `line_starts()` retains this for
the lifetime of the index. -/
theorem claim_C2_line_starts_sorted (t : List Char) (idx : LineIndex)
    (hfrom : LineIndex.fromSourceText t = some idx) :
    idx.lineStarts.get? 0 = some 0 ∧ idx.lineStarts.Pairwise (· < ·) :=
  ⟨fromSourceText_head hfrom, fromSourceText_sorted hfrom⟩

/-- Witness for C2 on the text a\r\nb, whose table is [0, 3]. -/
theorem claim_C2_line_starts_sorted_witness :
    (⟨[0, 3], IndexKind.Ascii⟩ : LineIndex).lineStarts.get? 0 = some 0 ∧
      (⟨[0, 3], IndexKind.Ascii⟩ : LineIndex).lineStarts.Pairwise (· < ·) :=
  claim_C2_line_starts_sorted "a\r\nb".toList ⟨[0, 3], IndexKind.Ascii⟩ (by decide)

/-- C3: for all valid offsets, applying `line_index` to the line-start
offset of the line containing an offset yields that same line. -/
theorem claim_C3_line_start_roundtrip (t : List Char) (idx : LineIndex) (o : Nat)
    (hfrom : LineIndex.fromSourceText t = some idx) (_ho : o ≤ byteLen t) :
    (idx.lineStart (idx.lineIndex o) t).map (fun s => idx.lineIndex s) =
      some (idx.lineIndex o) := by
  obtain ⟨row, s, hli, hrowlt, hrow, hso, hlstart, _, _⟩ :=
    lineIndex_located t idx hfrom o
  rw [hli, hlstart]
  simp only [Option.map_some']
  congr 1
  exact lineIndex_get (fromSourceText_sorted hfrom) hrow

/-- Witness for C3 on x=1\ny=2\n at offset 5 (inside line 2). -/
theorem claim_C3_line_start_roundtrip_witness :
    ((⟨[0, 4, 8], IndexKind.Ascii⟩ : LineIndex).lineStart
        ((⟨[0, 4, 8], IndexKind.Ascii⟩ : LineIndex).lineIndex 5) "x=1\ny=2\n".toList).map
      (fun s => (⟨[0, 4, 8], IndexKind.Ascii⟩ : LineIndex).lineIndex s) =
      some ((⟨[0, 4, 8], IndexKind.Ascii⟩ : LineIndex).lineIndex 5) :=
  claim_C3_line_start_roundtrip "x=1\ny=2\n".toList ⟨[0, 4, 8], IndexKind.Ascii⟩ 5
    (by decide) (by decide)

/-- C4: `intersects` treats ranges as half-open and is exclusive at the
boundary: with the single stored range [5,10), the query [10,15) does not
intersect while [9,11) does; and in general `intersects` only reports true
when some stored range has at least one byte in common with the query, so
a query that merely touches a stored range at an endpoint never
intersects it. -/
theorem claim_C4_intersects_half_open :
    commentsIntersect [(5, 10)] (10, 15) = false ∧
    commentsIntersect [(5, 10)] (9, 11) = true ∧
    ∀ (ranges : List (Nat × Nat)) (target : Nat × Nat),
      commentsIntersect ranges target = true →
      ∃ r ∈ ranges, (rangeIntersect target r).isSome = true := by
  refine ⟨by decide, by decide, ?_⟩
  intro ranges target h
  unfold commentsIntersect at h
  cases hbs : binarySearchBy ranges (fun r => commentOrd target r) with
  | error i => rw [hbs] at h; simp at h
  | ok i =>
    obtain ⟨v, hget, heq⟩ := binarySearchBy_ok hbs
    refine ⟨v, List.get?_mem hget, ?_⟩
    unfold commentOrd at heq
    split_ifs at heq with h1 h2
    exact h1

/-- Witness for C4 at the properly overlapping query [6,8). -/
theorem claim_C4_intersects_half_open_witness :
    ∃ r ∈ [((5 : Nat), (10 : Nat))], (rangeIntersect (6, 8) r).isSome = true :=
  claim_C4_intersects_half_open.2.2 [(5, 10)] (6, 8) (by decide)

/-- C5: the output of `block_comments` is exactly the concatenation, over
the blocks formed by the grouping state machine (`specGroups`, which
records every block), of each block's members when the block has more
than one member and at least one non-empty member — so in every index a
block's members are emitted only under that condition.  Consequently
every emitted offset lies in such a qualifying block and is the start of
an own-line comment (an end-of-line comment never appears in nor extends
a block), a single isolated own-line comment is never returned, two
comments separated by a blank source line are never grouped into one
emitted block, and an all-empty index emits nothing. -/
theorem claim_C5_block_comments :
    (∀ (ranges : List (Nat × Nat)) (source : List Char),
      blockComments ranges source =
        (specGroups ranges source).map (fun gs => (gs.map emitGroup).flatten)) ∧
    (∀ (ranges : List (Nat × Nat)) (source : List Char) (out : List Nat) (o : Nat),
      blockComments ranges source = some out → o ∈ out →
      ∃ gs block ne, specGroups ranges source = some gs ∧ (block, ne) ∈ gs ∧
        o ∈ block ∧ block.length > 1 ∧ ne = true) ∧
    (∀ (ranges : List (Nat × Nat)) (source : List Char) (out : List Nat),
      blockComments ranges source = some out →
      ∀ o ∈ out, ∃ r ∈ ranges, o = r.1 ∧ isOwnLine r.1 source = some true) ∧
    (∀ (r : Nat × Nat) (source : List Char) (out : List Nat),
      blockComments [r] source = some out → out = []) ∧
    (∀ (r1 r2 : Nat × Nat) (source : List Char) (out : List Nat) (p ls2 : Nat),
      blockComments [r1, r2] source = some out →
      strFullLineEnd source r1.1 = some p →
      strLineStart source r2.1 = some ls2 →
      containsLineBreak source p ls2 = some true → out = []) ∧
    (∀ (ranges : List (Nat × Nat)) (source : List Char) (out : List Nat),
      blockComments ranges source = some out →
      (∀ r ∈ ranges, isEmptyComment r source = some true) → out = []) := by
  refine ⟨fun ranges source => blockComments_eq_specGroups ranges source,
    fun ranges source out o hbc ho => blockComments_mem_group hbc ho, ?_, ?_, ?_, ?_⟩
  · intro ranges source out hbc o ho
    unfold blockComments at hbc
    cases hfold : List.foldlM (blockStep source)
        { out := [], block := [], column := none, nonEmpty := false, prevLineEnd := none }
        ranges with
    | none => rw [hfold] at hbc; simp at hbc
    | some final =>
      rw [hfold] at hbc
      simp only [Option.bind_eq_bind, Option.some_bind] at hbc
      injection hbc with hout
      subst hout
      have hmem : o ∈ final.out ++ final.block := by
        rcases List.mem_append.mp ho with h1 | h1
        · exact List.mem_append.mpr (Or.inl h1)
        · exact List.mem_append.mpr (Or.inr (flushBlock_sub h1))
      rcases blockFold_mem ranges _ final hfold o hmem with h1 | h1
      · simp at h1
      · exact h1
  · intro r source out hbc
    unfold blockComments at hbc
    rw [List.foldlM_cons] at hbc
    cases hstep : blockStep source
        { out := [], block := [], column := none, nonEmpty := false, prevLineEnd := none }
        r with
    | none => rw [hstep] at hbc; simp at hbc
    | some st1 =>
      rw [hstep] at hbc
      simp only [Option.bind_eq_bind, Option.some_bind, List.foldlM_nil] at hbc
      injection hbc with hout
      subst hout
      obtain ⟨_, _, hshape⟩ := blockStep_cases hstep
      have hout1 : st1.out = [] := by
        rcases hshape with ⟨ho1, _⟩ | ⟨ho1, _, _⟩
        · rw [ho1]
          rfl
        · rw [ho1]
      have hblk1 : st1.block.length ≤ 1 := by
        rcases hshape with ⟨_, hb | ⟨hb, _⟩⟩ | ⟨_, hb, _⟩
        · rw [hb]; simp
        · rw [hb]; simp
        · rw [hb]; simp
      rw [hout1, flushBlock_of_short hblk1]
      rfl
  · intro r1 r2 source out p ls2 hbc hfle1 hls2 hbr
    unfold blockComments at hbc
    rw [List.foldlM_cons] at hbc
    cases hstep1 : blockStep source
        { out := [], block := [], column := none, nonEmpty := false, prevLineEnd := none }
        r1 with
    | none => rw [hstep1] at hbc; simp at hbc
    | some st1 =>
      rw [hstep1] at hbc
      simp only [Option.bind_eq_bind, Option.some_bind, List.foldlM_cons, List.foldlM_nil] at hbc
      cases hstep2 : blockStep source st1 r2 with
      | none => rw [hstep2] at hbc; simp at hbc
      | some st2 =>
        rw [hstep2] at hbc
        simp only [Option.some_bind] at hbc
        injection hbc with hout
        subst hout
        obtain ⟨⟨le1, hfle1', hprev1⟩, _, hshape1⟩ := blockStep_cases hstep1
        rw [hfle1] at hfle1'
        injection hfle1' with hle1
        subst hle1
        have hout1 : st1.out = [] := by
          rcases hshape1 with ⟨ho1, _⟩ | ⟨ho1, _, _⟩
          · rw [ho1]; rfl
          · rw [ho1]
        have hblk1 : st1.block.length ≤ 1 := by
          rcases hshape1 with ⟨_, hb | ⟨hb, _⟩⟩ | ⟨_, hb, _⟩
          · rw [hb]; simp
          · rw [hb]; simp
          · rw [hb]; simp
        unfold blockStep at hstep2
        dsimp only at hstep2
        rw [hls2] at hstep2
        simp only [Option.bind_eq_bind, Option.some_bind] at hstep2
        cases hfle2 : strFullLineEnd source r2.1 with
        | none => rw [hfle2] at hstep2; simp at hstep2
        | some le2 =>
        rw [hfle2] at hstep2
        simp only [Option.some_bind] at hstep2
        cases hown2 : isOwnLine r2.1 source with
        | none => rw [hown2] at hstep2; simp at hstep2
        | some ow2 =>
        rw [hown2] at hstep2
        simp only [Option.some_bind] at hstep2
        cases ow2 with
        | false =>
          rw [if_pos rfl] at hstep2
          injection hstep2 with h2
          subst h2
          rw [hout1, flushBlock_of_short hblk1]
          rfl
        | true =>
          rw [if_neg (by simp)] at hstep2
          rw [hprev1] at hstep2
          simp only [] at hstep2
          rw [hbr] at hstep2
          simp only [Option.some_bind] at hstep2
          rw [if_pos trivial] at hstep2
          cases hem2 : isEmptyComment r2 source with
          | none => rw [hem2] at hstep2; simp at hstep2
          | some em2 =>
          rw [hem2] at hstep2
          simp only [Option.some_bind] at hstep2
          injection hstep2 with h2
          subst h2
          rw [hout1, flushBlock_of_short hblk1]
          rfl
  · intro ranges source out hbc hall
    unfold blockComments at hbc
    cases hfold : List.foldlM (blockStep source)
        { out := [], block := [], column := none, nonEmpty := false, prevLineEnd := none }
        ranges with
    | none => rw [hfold] at hbc; simp at hbc
    | some final =>
      rw [hfold] at hbc
      simp only [Option.bind_eq_bind, Option.some_bind] at hbc
      injection hbc with hout
      subst hout
      obtain ⟨hne, hout⟩ := blockFold_all_empty ranges _ final hfold hall rfl rfl
      rw [hout, flushBlock_of_nonEmpty_false hne]
      rfl

/-- Witness for C5: the two-member block case computes the same output as
the filtered recorded blocks; the emitted offset 0 lies in a recorded
block with two members and a non-empty member and is an own-line comment
start; a singleton index, a blank-separated pair, and an all-empty index
each produce no output. -/
theorem claim_C5_block_comments_witness :
    (blockComments [((0 : Nat), (3 : Nat)), ((4 : Nat), (7 : Nat))] "# a\n# b".toList =
      (specGroups [((0 : Nat), (3 : Nat)), ((4 : Nat), (7 : Nat))] "# a\n# b".toList).map
        (fun gs => (gs.map emitGroup).flatten)) ∧
    (∃ gs block ne, specGroups [((0 : Nat), (3 : Nat)), ((4 : Nat), (7 : Nat))]
        "# a\n# b".toList = some gs ∧ (block, ne) ∈ gs ∧ (0 : Nat) ∈ block ∧
        block.length > 1 ∧ ne = true) ∧
    (∃ r ∈ [((0 : Nat), (3 : Nat)), ((4 : Nat), (7 : Nat))],
      (0 : Nat) = r.1 ∧ isOwnLine r.1 "# a\n# b".toList = some true) ∧
    ([] : List Nat) = [] ∧
    ([] : List Nat) = [] ∧
    ([] : List Nat) = [] :=
  ⟨claim_C5_block_comments.1 [(0, 3), (4, 7)] "# a\n# b".toList,
    claim_C5_block_comments.2.1 [(0, 3), (4, 7)] "# a\n# b".toList [0, 4] 0 (by decide)
      (by decide),
    claim_C5_block_comments.2.2.1 [(0, 3), (4, 7)] "# a\n# b".toList [0, 4] (by decide) 0
      (by decide),
    claim_C5_block_comments.2.2.2.1 (0, 3) "# a\n".toList [] (by decide),
    claim_C5_block_comments.2.2.2.2.1 (0, 3) (5, 8) "# a\n\n# b".toList [] 4 5
      (by decide) (by decide) (by decide) (by decide),
    claim_C5_block_comments.2.2.2.2.2 [(0, 1), (2, 3)] "#\n#".toList [] (by decide)
      (by decide)⟩

/-- Counterexample to C6: `source_location` on the ASCII text ab with the
out-of-bounds offset 3 returns a value (line 1, one-indexed character
offset 4) instead of aborting, because the ASCII fast path never slices
the text; so not every contract violation aborts. -/
theorem claim_C6_counterexample :
    LineIndex.fromSourceText "ab".toList = some ⟨[0], IndexKind.Ascii⟩ ∧
    byteLen "ab".toList < 3 ∧
    (⟨[0], IndexKind.Ascii⟩ : LineIndex).sourceLocation 3 "ab".toList .Utf8 =
      some ⟨1, 4⟩ := by
  decide

/-- C6 (amended): `line_start` with a line more than one past the last
recorded line aborts; building an index from a buffer longer than the
maximum representable offset aborts; `source_location` with an offset
beyond the text length aborts only when the index is non-ASCII and the
encoding is UTF-16 or UTF-32 (the paths that slice the text); for an
ASCII index, or for the UTF-8 encoding, it instead returns a value. -/
theorem claim_C6_contract_violations :
    (∀ (t : List Char) (idx : LineIndex) (line : Nat),
      LineIndex.fromSourceText t = some idx →
      idx.lineStarts.length + 1 < line → idx.lineStart line t = none) ∧
    (∀ t : List Char, u32Max < byteLen t → LineIndex.fromSourceText t = none) ∧
    (∀ (t : List Char) (idx : LineIndex) (o : Nat) (enc : PositionEncoding),
      LineIndex.fromSourceText t = some idx → idx.kind.isAscii = false →
      (enc = .Utf16 ∨ enc = .Utf32) → byteLen t < o →
      idx.sourceLocation o t enc = none) ∧
    (∀ (t : List Char) (idx : LineIndex) (o : Nat) (enc : PositionEncoding),
      LineIndex.fromSourceText t = some idx →
      (idx.kind.isAscii = true ∨ enc = .Utf8) →
      ∃ loc, idx.sourceLocation o t enc = some loc) := by
  refine ⟨?_, ?_, ?_, ?_⟩
  · intro t idx line _hfrom hline
    unfold LineIndex.lineStart
    rw [if_neg (by omega)]
    exact List.get?_eq_none.mpr (by omega)
  · intro t h
    unfold LineIndex.fromSourceText
    rw [if_neg (by omega)]
  · intro t idx o enc hfrom hk henc ho
    obtain ⟨row, s, hli, hrowlt, hrow, hso, hlstart, ⟨ks, hks, hseq⟩, _⟩ :=
      lineIndex_located t idx hfrom o
    have hslice : sliceBytes t s o = none := by
      rw [hseq]
      exact sliceBytes_none_of_gt t hks ho
    rcases henc with rfl | rfl
    · exact sourceLocation_eval_utf16_none idx t o row s hk hli hlstart hslice
    · exact sourceLocation_eval_utf32_none idx t o row s hk hli hlstart hslice
  · intro t idx o enc hfrom hcase
    obtain ⟨row, s, hli, hrowlt, hrow, hso, hlstart, _, _⟩ :=
      lineIndex_located t idx hfrom o
    cases hk : idx.kind.isAscii with
    | true => exact ⟨_, sourceLocation_eval_ascii idx t o enc row s hk hli hlstart⟩
    | false =>
      rcases hcase with hcontra | rfl
      · rw [hk] at hcontra
        exact absurd hcontra (by simp)
      · exact ⟨_, sourceLocation_eval_utf8 idx t o row s hk hli hlstart⟩

/-- Witness for C6 (amended): a line two past the end panics on a\nb; a
buffer of 2^32 bytes is rejected; UTF-16 conversion of offset 3 in the
two-byte non-ASCII text \u{e9} panics; UTF-8 conversion of offset 5 in
the same text returns a value. -/
theorem claim_C6_contract_violations_witness :
    (⟨[0, 2], IndexKind.Ascii⟩ : LineIndex).lineStart 4 "a\nb".toList = none ∧
    LineIndex.fromSourceText (List.replicate 4294967296 'a') = none ∧
    (⟨[0], IndexKind.Utf8⟩ : LineIndex).sourceLocation 3 "é".toList .Utf16 = none ∧
    ∃ loc, (⟨[0], IndexKind.Utf8⟩ : LineIndex).sourceLocation 5 "é".toList .Utf8 =
      some loc :=
  ⟨claim_C6_contract_violations.1 "a\nb".toList ⟨[0, 2], IndexKind.Ascii⟩ 4
      (by decide) (by decide),
    claim_C6_contract_violations.2.1 (List.replicate 4294967296 'a')
      (by rw [byteLen_replicate]; decide),
    claim_C6_contract_violations.2.2.1 "é".toList ⟨[0], IndexKind.Utf8⟩ 3 .Utf16
      (by decide) (by decide) (Or.inl rfl) (by decide),
    claim_C6_contract_violations.2.2.2 "é".toList ⟨[0], IndexKind.Utf8⟩ 5 .Utf8
      (by decide) (Or.inr rfl)⟩

/-- C7: for a line with a recorded successor, `line_end_exclusive` is the
next line's start minus exactly one byte, whatever the terminator was; for
the last recorded line and the virtual line past it, it is the text
length. -/
theorem claim_C7_line_end_exclusive (t : List Char) (idx : LineIndex) (line : Nat)
    (_hfrom : LineIndex.fromSourceText t = some idx) (hline : 1 ≤ line) :
    (line < idx.lineStarts.length →
      ∀ nxt, idx.lineStarts.get? line = some nxt →
        idx.lineEndExclusive line t = nxt - 1) ∧
    (idx.lineStarts.length ≤ line → idx.lineEndExclusive line t = byteLen t) := by
  have hrw : line - 1 + 1 = line := by omega
  constructor
  · intro hlt nxt hnxt
    unfold LineIndex.lineEndExclusive
    dsimp only
    rw [hrw, if_neg (by omega)]
    rw [List.getD_eq_getElem?_getD, ← List.get?_eq_getElem?, hnxt]
    rfl
  · intro hge
    unfold LineIndex.lineEndExclusive
    dsimp only
    rw [hrw, if_pos (by omega)]

/-- Witness for C7 on a\r\nb (table [0, 3]): line 1 ends exclusively at
3 - 1 = 2, and lines 2 and 3 end at the text length 4. -/
theorem claim_C7_line_end_exclusive_witness :
    (⟨[0, 3], IndexKind.Ascii⟩ : LineIndex).lineEndExclusive 1 "a\r\nb".toList = 2 ∧
    (⟨[0, 3], IndexKind.Ascii⟩ : LineIndex).lineEndExclusive 2 "a\r\nb".toList =
      byteLen "a\r\nb".toList ∧
    (⟨[0, 3], IndexKind.Ascii⟩ : LineIndex).lineEndExclusive 3 "a\r\nb".toList =
      byteLen "a\r\nb".toList :=
  ⟨(claim_C7_line_end_exclusive "a\r\nb".toList ⟨[0, 3], IndexKind.Ascii⟩ 1
      (by decide) (by decide)).1 (by decide) 3 (by decide),
    (claim_C7_line_end_exclusive "a\r\nb".toList ⟨[0, 3], IndexKind.Ascii⟩ 2
      (by decide) (by decide)).2 (by decide),
    (claim_C7_line_end_exclusive "a\r\nb".toList ⟨[0, 3], IndexKind.Ascii⟩ 3
      (by decide) (by decide)).2 (by decide)⟩

/-- Counterexample to C8: two source files with equal names but different
texts compare `Equal` under `cmp` while `==` is false, so `cmp` does not
return `Equal` exactly for name-and-text-equal pairs. -/
theorem claim_C8_counterexample :
    SourceFile.cmp ⟨['a'], ['x']⟩ ⟨['a'], ['y']⟩ = Ordering.eq ∧
    SourceFile.beq ⟨['a'], ['x']⟩ ⟨['a'], ['y']⟩ = false := by
  decide

/-- C8 (amended): `==` on source files holds exactly when name and text
are both equal, while the total order `cmp` returns `Equal` exactly when
the names are equal (text ignored); equality therefore implies `cmp`
equality but not conversely. -/
theorem claim_C8_eq_ord (a b : SourceFile) :
    (SourceFile.beq a b = true ↔ (a.name = b.name ∧ a.code = b.code)) ∧
    (SourceFile.cmp a b = Ordering.eq ↔ a.name = b.name) := by
  constructor
  · unfold SourceFile.beq
    simp [Bool.and_eq_true]
  · exact strCmp_eq_iff a.name b.name

/-- C9: for BOM-prefixed text with no line terminator in the first `o`
bytes, the unindexed scanner returns the offset just past the byte-order
mark, 3 — which exceeds the argument when `o < 3`; in particular
`line_start(0) = 3` and offset 0 is not reported as a line start. -/
theorem claim_C9_bom_line_start (t pre : List Char) (o : Nat)
    (hbom : t.head? = some '﻿') (htb : takeBytes t o = some pre)
    (hnl : ∀ c ∈ pre, ¬(c = '\n' ∨ c = '\r')) :
    strLineStart t o = some 3 ∧ isAtStartOfLine t 0 = some false := by
  have hbomoff : bomStartOffset t = 3 := by
    unfold bomStartOffset
    rw [if_pos hbom]
    decide
  have hmain : strLineStart t o = some 3 := by
    unfold strLineStart
    rw [htb]
    simp only [Option.map_some']
    rw [lastNewlineEnd_none hnl 0, hbomoff]
  refine ⟨hmain, ?_⟩
  have h0 : strLineStart t 0 = some 3 := by
    unfold strLineStart
    have ht0 : takeBytes t 0 = some [] := by cases t <;> rfl
    rw [ht0]
    simp only [Option.map_some']
    rw [lastNewlineEnd_none (by simp) 0, hbomoff]
  unfold isAtStartOfLine
  rw [h0]
  rfl

/-- Witness for C9 on the text \u{feff}abc at offset 3 (just past the
mark). -/
theorem claim_C9_bom_line_start_witness :
    strLineStart "﻿abc".toList 3 = some 3 ∧
      isAtStartOfLine "﻿abc".toList 0 = some false :=
  claim_C9_bom_line_start "﻿abc".toList ['﻿'] 3 (by decide) (by decide)
    (by decide)

/-- C10: `line_index` is total over all offsets, returning the one-based
number of the last line whose recorded start does not exceed the offset
(out-of-range offsets clamp to the last line), and the underflowing
insertion-point-0 branch of the binary search is unreachable because the
table always contains the entry 0. -/
theorem claim_C10_line_index_total (t : List Char) (idx : LineIndex) (o : Nat)
    (hfrom : LineIndex.fromSourceText t = some idx) :
    ∃ row s, idx.lineIndex o = row + 1 ∧
      idx.lineStarts.get? row = some s ∧ s ≤ o ∧
      (∀ j v, idx.lineStarts.get? j = some v → v ≤ o → j ≤ row) ∧
      binarySearchBy idx.lineStarts (fun x => compare x o) ≠ Except.error 0 := by
  have hs := fromSourceText_sorted hfrom
  obtain ⟨row, s, hli, hrow, hso, hmax, hne⟩ :=
    lineIndex_spec idx hs (fromSourceText_head hfrom) o
  exact ⟨row, s, hli, hrow, hso, sorted_last_le hs hrow hmax, hne⟩

/-- Witness for C10 on a\nb at the out-of-range offset 100, which clamps
to the last line. -/
theorem claim_C10_line_index_total_witness :
    ∃ row s, (⟨[0, 2], IndexKind.Ascii⟩ : LineIndex).lineIndex 100 = row + 1 ∧
      (⟨[0, 2], IndexKind.Ascii⟩ : LineIndex).lineStarts.get? row = some s ∧ s ≤ 100 ∧
      (∀ j v, (⟨[0, 2], IndexKind.Ascii⟩ : LineIndex).lineStarts.get? j = some v →
        v ≤ 100 → j ≤ row) ∧
      binarySearchBy (⟨[0, 2], IndexKind.Ascii⟩ : LineIndex).lineStarts
        (fun x => compare x 100) ≠ Except.error 0 :=
  claim_C10_line_index_total "a\nb".toList ⟨[0, 2], IndexKind.Ascii⟩ 100 (by decide)
